import Mathlib

/-!
Verification of the planner repository's task-tree store, discovery state
machine and requirement stores against its natural-language specification.

The development shallowly embeds the TypeScript sources:

* `FileTaskStore` (src/src/storage/FileTaskStore.ts): an in-memory
  `Map<string, Task>` is embedded as a `List Task` in insertion order
  (a JS `Map` iterates in insertion order; `set` on an existing key keeps
  its position, `set` on a new key appends, `delete` removes).
* `DrizzleTechnicalRequirementStore`, `DrizzleRequirementStore` and the
  `RequirementGenerator` discovery machine (src/src/storage/drizzle/*,
  src/src/core/RequirementGenerator.ts): database tables are embedded as
  lists of rows in insertion order.

Machine ids produced by `nanoid()` / `uuidv4()` are modelled as explicit
arguments together with a freshness side condition (the generated id differs
from every stored id and from every stored or supplied parent pointer),
which is the uniqueness assumption those generators provide.  Wall-clock
values (`new Date()`, `Date.now()`) are modelled as explicit `Nat`
arguments.
-/

namespace Planner

/-- Task record of src/src/core/Task.ts (`Task` interface): id, title,
optional description, completed flag, optional parent pointer, required
projectId, denormalised list of child ids, timestamps, optional priority,
optional position. -/
structure Task where
  id : String
  title : String
  description : Option String
  completed : Bool
  parentId : Option String
  projectId : String
  childTasks : List String
  createdAt : Nat
  updatedAt : Nat
  priority : Option String
  deriving Repr, DecidableEq

/-- Input to `FileTaskStore.createTask` (`TaskInput` plus the `projectId`
that the store reads from the input). -/
structure TaskInput where
  title : String
  description : Option String
  parentId : Option String
  projectId : String
  priority : Option String
  deriving Repr, DecidableEq

namespace FileTaskStore

/-- The in-memory store `private tasks: Map<string, Task>`, as its list of
entries in insertion order. -/
abbrev Store := List Task

/-- `this.tasks.get(id)`. -/
def lookup (s : Store) (id : String) : Option Task :=
  List.find? (fun t => t.id = id) s

/-- `this.tasks.set(t.id, t)`: replace the entry with the same key in
place, or append when the key is new. -/
def setTask (s : Store) (t : Task) : Store :=
  if List.any s (fun u => u.id = t.id) then
    List.map (fun u => if u.id = t.id then t else u) s
  else
    s ++ [t]

/-- `this.tasks.delete(id)`. -/
def eraseTask (s : Store) (id : String) : Store :=
  List.filter (fun u => u.id ≠ id) s

/-- `FileTaskStore.createTask` (lines 86-113): builds the new task with
`completed = false` and empty `childTasks`; if a parentId was supplied and
that parent is in the map, pushes the new id onto the parent's
`childTasks`; a missing parent is silently ignored; finally stores the new
task.  `newId` stands for the `nanoid()` result and `now` for `new
Date()`. -/
def createTask (s : Store) (input : TaskInput) (newId : String) (now : Nat) :
    Store × Task :=
  let task : Task :=
    { id := newId, title := input.title, description := input.description,
      completed := false, parentId := input.parentId,
      projectId := input.projectId, childTasks := [],
      createdAt := now, updatedAt := now, priority := input.priority }
  let s1 :=
    match input.parentId with
    | some pid =>
      match lookup s pid with
      | some parent =>
        setTask s { parent with childTasks := parent.childTasks ++ [task.id] }
      | none => s
    | none => s
  (setTask s1 task, task)

/-- The detach step at the top of `FileTaskStore.deleteTask` (lines
137-146): if the task has a parent and the parent is in the map, filter the
deleted id out of the parent's `childTasks`. -/
def detachParent (s : Store) (t : Task) : Store :=
  match t.parentId with
  | some pid =>
    match lookup s pid with
    | some parent =>
      setTask s { parent with childTasks := List.filter (fun c => c ≠ t.id) parent.childTasks }
    | none => s
  | none => s

/-- `FileTaskStore.deleteTask` (lines 133-156) with an explicit recursion
bound.  The source recursion is unbounded; `deleteTask` below supplies
`s.length + 1` fuel and the lemmas show this never runs out on consistent
stores, so the embedding computes exactly what the source computes there.
Per the source: missing id returns `false`; otherwise detach from the
parent, recursively delete each id of the `childTasks` list captured
before the loop, then remove the task itself and return `true`. -/
def deleteTaskFuel : Nat → Store → String → Store × Bool
  | 0, s, _ => (s, false)
  | fuel + 1, s, id =>
    match lookup s id with
    | none => (s, false)
    | some t =>
      let s1 := detachParent s t
      let s2 := List.foldl (fun acc c => (deleteTaskFuel fuel acc c).1) s1 t.childTasks
      (eraseTask s2 id, true)

/-- `FileTaskStore.deleteTask`, with fuel exceeding any possible recursion
depth of a consistent store. -/
def deleteTask (s : Store) (id : String) : Store × Bool :=
  deleteTaskFuel (s.length + 1) s id

/-- `FileTaskStore.getTaskById`. -/
def getTaskById (s : Store) (id : String) : Option Task :=
  lookup s id

/-- One store mutation of the claim "for every sequence of createTask and
deleteTask operations": a `createTask` call (with the generated nanoid and
the clock value made explicit) or a `deleteTask` call. -/
inductive Op where
  | create (input : TaskInput) (newId : String) (now : Nat)
  | delete (id : String)
  deriving Repr, DecidableEq

/-- Apply one operation to the store. -/
def applyOp (s : Store) : Op → Store
  | Op.create input newId now => (createTask s input newId now).1
  | Op.delete id => (deleteTask s id).1

/-- Run a sequence of operations. -/
def runOps (s : Store) : List Op → Store
  | [] => s
  | op :: rest => runOps (applyOp s op) rest

/-- Freshness of a generated nanoid at the time of a `createTask` call: the
new id differs from every stored id, from every stored parent pointer and
from the supplied parentId.  `nanoid()` collides with none of these except
with negligible probability; the source relies on that. -/
def freshId (s : Store) (input : TaskInput) (newId : String) : Bool :=
  List.all s (fun u => u.id ≠ newId && u.parentId ≠ some newId) &&
    input.parentId ≠ some newId

/-- A sequence of operations is admissible when every `create` step uses a
fresh generated id; `delete` steps are unrestricted. -/
def okOps (s : Store) : List Op → Bool
  | [] => true
  | Op.create input newId now :: rest =>
    freshId s input newId &&
      okOps (applyOp s (Op.create input newId now)) rest
  | Op.delete id :: rest => okOps (applyOp s (Op.delete id)) rest

/-- The store keys (task ids) are pairwise distinct, as they are in the
source's `Map<string, Task>`. -/
def NodupKeys (s : Store) : Prop :=
  (s.map Task.id).Nodup

/-- `x` is the root `root` or a transitive descendant of it: reachable by
following authoritative `parentId` pointers down from `root` through tasks
present in the store. -/
inductive InSub (s : Store) (root : String) : String → Prop
  | root : InSub s root root
  | step : ∀ v : Task, v ∈ s → ∀ m, v.parentId = some m → InSub s root m →
      InSub s root v.id

/-- A ranking certificate for the parent graph: every stored task whose
parent pointer resolves to a stored task sits strictly above its parent.
Reachable stores have one because a task is always created after its
parent. -/
def RankOk (s : Store) (rank : String → Nat) : Prop :=
  ∀ v ∈ s, ∀ p, v.parentId = some p → ∀ u ∈ s, u.id = p → rank p < rank v.id

/-- Number of stored tasks of rank at least `b`; the recursion measure for
subtree computations. -/
def cnt (s : Store) (rank : String → Nat) (b : Nat) : Nat :=
  (List.filter (fun u => b ≤ rank u.id) s).length

/-- Ids of `root` and of its transitive descendants, computed by the same
child query the source's cascade uses (`parentId = root`), with an explicit
recursion bound. -/
def subtreeFuel : Nat → Store → String → List String
  | 0, _, root => [root]
  | fuel + 1, s, root =>
    root ::
      (List.map (fun t => subtreeFuel fuel s t.id)
        (List.filter (fun t => t.parentId = some root) s)).flatten

/-- Ids of `root` and of its transitive descendants (`s.length` bounds the
depth of any consistent store). -/
def subtreeIds (s : Store) (root : String) : List String :=
  subtreeFuel s.length s root

/-- Per-task consistency of the denormalised child list: `childTasks` is
duplicate-free and holds exactly the ids of the stored tasks whose
`parentId` is this task. -/
def TaskChildrenOk (s : Store) (u : Task) : Prop :=
  u.childTasks.Nodup ∧
    ∀ c, c ∈ u.childTasks ↔ ∃ v ∈ s, v.id = c ∧ v.parentId = some u.id

/-- Tree consistency of the spec: every stored task's `childTasks` agrees
with the authoritative `parentId` pointers. -/
def ChildrenOk (s : Store) : Prop :=
  ∀ u ∈ s, TaskChildrenOk s u

/-- Child-list consistency restricted to the subtree of `root`; the
cascade-delete proof carries this through intermediate states in which a
task outside the subtree is already detached. -/
def SubChildrenOk (s : Store) (root : String) : Prop :=
  ∀ u ∈ s, InSub s root u.id → TaskChildrenOk s u

/-- Invariant of reachable stores: distinct keys, a parent ranking, and
consistent child lists. -/
def Inv (s : Store) : Prop :=
  NodupKeys s ∧ (∃ rank, RankOk s rank) ∧ ChildrenOk s

/-- Dropping `t.id` from the child list of the task `t.parentId` points
at (the lasting effect of the detach step of `deleteTask t`). -/
def detachAll (t u : Task) : Task :=
  if t.parentId = some u.id then
    { u with childTasks := List.filter (fun c => c ≠ t.id) u.childTasks }
  else u

/-- The state `deleteTask root` leaves behind, described directly: the
subtree of `root` is dropped and `root` is filtered out of its parent's
`childTasks`; everything else is untouched. -/
def deleteResult (s : Store) (t : Task) : Store :=
  List.filter (fun u => ¬ (subtreeIds s t.id).contains u.id)
    (s.map (detachAll t))

/-! Basic facts about the store primitives. -/

/-- The store with the pending child ids `cs` filtered out of the child
list of the task being deleted; intermediate shape of the cascade loop. -/
def modChild (tid : String) (cs : List String) (σ : Store) : Store :=
  σ.map (fun u => if u.id = tid then
    { u with childTasks := u.childTasks.filter (fun ch => ch ∉ cs) }
    else u)

/-- Survivor predicate of the cascade loop over `cs`: the task is in none
of the subtrees rooted at the pending child ids. -/
def remPred (σ : Store) (cs : List String) (u : Task) : Bool :=
  !(cs.any (fun c => (subtreeIds σ c).contains u.id))

/-- Dropping child id `c` from the child list of the task with id `tid`. -/
def detachChild (tid c : String) (u : Task) : Task :=
  if u.id = tid then
    { u with childTasks := List.filter (fun ch => ch ≠ c) u.childTasks }
  else u

/-- Removing the subtree rooted at child id `c` (whose parent is `tid`)
and detaching `c` from `tid`; the canonical shape of one step of the
cascade loop. -/
def removeSub (σ : Store) (tid c : String) : Store :=
  List.filter (fun u => ¬ (subtreeIds σ c).contains u.id)
    (σ.map (detachChild tid c))

/-- What `deleteTask s id` guarantees, per the spec's cascade-completeness
property: an unknown id fails (`false`) and changes nothing; a present id
returns `true`, removes exactly the records of the subtree of `id` (the
task plus its `N` transitive descendants, `N + 1 = (subtreeIds s id).length`),
leaves none of the removed ids retrievable via `getTaskById`, creates no
new ids, and `subtreeIds` agrees with the descendant relation `InSub`. -/
def CascadeDeleteSpec (s : Store) (id : String) : Prop :=
  (lookup s id = none → deleteTask s id = (s, false)) ∧
  (∀ t, lookup s id = some t →
    (deleteTask s id).2 = true ∧
    (deleteTask s id).1.length + (subtreeIds s id).length = s.length ∧
    (∀ x ∈ subtreeIds s id, getTaskById (deleteTask s id).1 x = none) ∧
    (∀ x, getTaskById s x = none → getTaskById (deleteTask s id).1 x = none) ∧
    (∀ x, x ∈ subtreeIds s id ↔ InSub s id x))

/-- Example task input for the concrete witnesses. -/
def exInput (ttl : String) (pid : Option String) : TaskInput :=
  { title := ttl, description := none, parentId := pid, projectId := "P",
    priority := none }

/-- Scenario 1 of the spec: create root task A, then child task B. -/
def exOps₁ : List Op :=
  [Op.create (exInput "Task A" none) "a" 0,
   Op.create (exInput "Task B" (some "a")) "b" 1]

/-- Scenario 1 continued: delete A (cascades to B). -/
def exOps₂ : List Op := [Op.delete "a"]

/-- Store holding one root task A in project P, for the concrete inputs. -/
def exS : Store := (createTask [] (exInput "Task A" none) "a" 0).1

/-- The stored task A itself. -/
def exTA : Task := (createTask [] (exInput "Task A" none) "a" 0).2

/-- A task input in project Q naming A (project P) as parent. -/
def exInputQ : TaskInput :=
  { title := "Cross", description := none, parentId := some "a",
    projectId := "Q", priority := none }

end FileTaskStore

namespace TRStore

/-- One row of the `technical_requirements` table, with the fields relevant
to uniqueId assignment (DrizzleTaskStore.ts lines 368-405). -/
structure TRRow where
  id : String
  uniqueId : String
  projectId : String
  title : String
deriving Repr, DecidableEq

/-- The `technical_requirements` table. -/
abbrev TRDb := List TRRow

/-- JS `s.padStart(3, "0")`. -/
def padStart3 (s : String) : String :=
  if 3 ≤ s.length then s else String.mk (List.replicate (3 - s.length) '0') ++ s

/-- `generateUniqueId` (DrizzleTaskStore.ts lines 598-605): counts the rows
currently in the table and formats `count + 1` as `TR-NNN`. -/
def generateUniqueId (db : TRDb) : String :=
  let count := db.length
  let nextNumber := (if count > 0 then count else 0) + 1
  "TR-" ++ padStart3 (toString nextNumber)

/-- Input to `createTechnicalRequirement` (fields relevant here). -/
structure TRInput where
  projectId : String
  title : String
deriving Repr, DecidableEq

/-- `createTechnicalRequirement` (lines 368-405): assigns a fresh uuid
(`newId` argument), computes `uniqueId` via `generateUniqueId`, and inserts
the row. -/
def createTechnicalRequirement (db : TRDb) (input : TRInput) (newId : String) :
    TRDb × TRRow :=
  let uid := generateUniqueId db
  let row : TRRow :=
    { id := newId, uniqueId := uid, projectId := input.projectId,
      title := input.title }
  (db ++ [row], row)

/-- `getTechnicalRequirementById` restricted to the row lookup. -/
def getTechnicalRequirementById (db : TRDb) (id : String) : Option TRRow :=
  db.find? (fun r => r.id = id)

/-- `deleteTechnicalRequirement` (lines 471-489): returns false when the id
is absent, otherwise deletes the row and returns true. -/
def deleteTechnicalRequirement (db : TRDb) (id : String) : TRDb × Bool :=
  match getTechnicalRequirementById db id with
  | none => (db, false)
  | some _ => (db.filter (fun r => ¬ r.id = id), true)

/-- Concrete run for the uniqueId bug: create A, create B, delete A,
create C. -/
def c5db₁ : TRDb :=
  (createTechnicalRequirement [] { projectId := "P", title := "A" } "a").1

def c5rowB : TRRow :=
  (createTechnicalRequirement c5db₁ { projectId := "P", title := "B" } "b").2

def c5db₂ : TRDb :=
  (createTechnicalRequirement c5db₁ { projectId := "P", title := "B" } "b").1

def c5db₃ : TRDb := (deleteTechnicalRequirement c5db₂ "a").1

def c5rowC : TRRow :=
  (createTechnicalRequirement c5db₃ { projectId := "P", title := "C" } "c").2

def c5db₄ : TRDb :=
  (createTechnicalRequirement c5db₃ { projectId := "P", title := "C" } "c").1

end TRStore

namespace Discovery

/-- The `DiscoveryStage` union type (Requirement.ts). -/
inductive Stage where
  | initial | stakeholders | features | constraints | quality | finalize
deriving Repr, DecidableEq

/-- One row of the `discovery_sessions` table; `responses` is the JSON
object as an insertion-ordered association list. -/
structure SessionRow where
  id : String
  projectId : String
  domain : String
  stage : Stage
  responses : List (String × String)
  createdAt : Nat
  updatedAt : Nat
deriving Repr, DecidableEq

/-- The `discovery_sessions` table in insertion order. -/
abbrev SessionDb := List SessionRow

/-- `getExistingSession` (RequirementGenerator.ts lines 402-429). The where
clause is `eq(projectId, p) && eq(stage, s)`: drizzle `eq` returns a truthy
object, so the JS `&&` evaluates to its right operand and the query filters
by stage alone; the method then returns `sessions[0]`. -/
def getExistingSession (db : SessionDb) (projectId : String) (stage : Stage) :
    Option SessionRow :=
  (db.filter (fun s => s.stage = stage)).head?

/-- JS `obj[k] = v` on a plain object: overwrite in place if the key exists,
otherwise append. -/
def setKey (m : List (String × String)) (k v : String) :
    List (String × String) :=
  if m.any (fun p => p.1 = k) then m.map (fun p => if p.1 = k then (k, v) else p)
  else m ++ [(k, v)]

/-- Input to `processDiscoveryResponse` (fields relevant here). -/
structure ProcessInput where
  projectId : String
  stage : Stage
  response : String
deriving Repr, DecidableEq

/-- `processDiscoveryResponse` (lines 93-150): throws when
`getExistingSession` finds nothing; otherwise stores the response under the
key `Date.now().toString()` (`now` here) and updates the row whose id is
`session.id`. -/
def processDiscoveryResponse (db : SessionDb) (input : ProcessInput)
    (now : Nat) : Except String SessionDb :=
  match getExistingSession db input.projectId input.stage with
  | none => Except.error ("No discovery session found for project "
      ++ input.projectId)
  | some session => Except.ok (db.map (fun s =>
      if s.id = session.id
      then { s with responses := setKey session.responses (toString now) input.response, updatedAt := now }
      else s))

/-- Input to `guidedRequirementDiscovery` (fields relevant here). -/
structure DiscoveryInput where
  projectId : String
  domain : String
  stage : Stage
deriving Repr, DecidableEq

/-- `guidedRequirementDiscovery` (lines 45-88): resumes the session found by
`getExistingSession` or inserts a fresh one (`createDiscoverySession`, lines
431-451). Returns the table and the session id used. -/
def guidedRequirementDiscovery (db : SessionDb) (input : DiscoveryInput)
    (newId : String) (now : Nat) : SessionDb × String :=
  match getExistingSession db input.projectId input.stage with
  | some s => (db, s.id)
  | none => (db ++ [{ id := newId, projectId := input.projectId, domain := input.domain, stage := input.stage, responses := [], createdAt := now, updatedAt := now }], newId)

/-- A table holding a single session, belonging to project "p1". -/
def c6db : SessionDb :=
  [{ id := "s1", projectId := "p1", domain := "d", stage := Stage.initial,
     responses := [], createdAt := 0, updatedAt := 0 }]

/-- A recordResponse call for project "p2", which owns no session. -/
def c6input : ProcessInput :=
  { projectId := "p2", stage := Stage.initial, response := "hello" }

/-- A session for project "p1" already holding one response under key "3". -/
def c7db : SessionDb :=
  [{ id := "s1", projectId := "p1", domain := "d", stage := Stage.initial,
     responses := [("3", "old")], createdAt := 0, updatedAt := 3 }]

def c7input : ProcessInput :=
  { projectId := "p1", stage := Stage.initial, response := "r1" }

def c7input₂ : ProcessInput :=
  { projectId := "p1", stage := Stage.initial, response := "r2" }

def c7sess : SessionRow :=
  { id := "s1", projectId := "p1", domain := "d", stage := Stage.initial,
    responses := [("3", "old")], createdAt := 0, updatedAt := 3 }

/-- The table after one `processDiscoveryResponse` call at time 7. -/
def c7db₁ : SessionDb :=
  [{ id := "s1", projectId := "p1", domain := "d", stage := Stage.initial,
     responses := [("3", "old"), ("7", "r1")], createdAt := 0, updatedAt := 7 }]

/-- The table after a second call in the same millisecond: the key collides
and the first response is overwritten. -/
def c7db₂ : SessionDb :=
  [{ id := "s1", projectId := "p1", domain := "d", stage := Stage.initial,
     responses := [("3", "old"), ("7", "r2")], createdAt := 0, updatedAt := 7 }]

end Discovery

namespace ReqStore

/-- `RequirementPriority` (core/Requirement.ts line 6). -/
inductive ReqPriority where
  | low | medium | high | critical
deriving Repr, DecidableEq

/-- The database priority enum, which lacks "critical" (part_006). -/
inductive DbPriority where
  | low | medium | high
deriving Repr, DecidableEq

/-- `RequirementStatus` (core/Requirement.ts lines 7-13). -/
inductive ReqStatus where
  | draft | proposed | approved | rejected | implemented | verified
deriving Repr, DecidableEq

/-- One row of the `requirements` table (priority is nullable). -/
structure ReqRow where
  id : String
  projectId : String
  title : String
  description : String
  type : String
  priority : Option DbPriority
  status : ReqStatus
  tags : List String
  createdAt : Nat
  updatedAt : Nat
deriving Repr, DecidableEq

/-- The `requirements` table in insertion order. -/
abbrev ReqDb := List ReqRow

/-- The `Requirement` model returned to callers (core/Requirement.ts). -/
structure Requirement where
  id : String
  projectId : String
  title : String
  description : String
  type : String
  priority : ReqPriority
  status : ReqStatus
  tags : List String
  createdAt : Nat
  updatedAt : Nat
deriving Repr, DecidableEq

/-- `RequirementInput` (core/Requirement.ts lines 28-35) has no status
field, but the tool layer (project-tools.ts lines 188-195) passes a
`status` property in the object literal it hands to `createRequirement`;
it is kept here as an optional field so the theorems can state that
`createRequirement` never reads it. -/
structure RequirementInput where
  projectId : String
  title : String
  description : String
  type : String
  priority : ReqPriority
  tags : Option (List String)
  status : Option ReqStatus
deriving Repr, DecidableEq

/-- `UpdateRequirementInput` (core/Requirement.ts lines 37-44). -/
structure UpdateRequirementInput where
  title : Option String
  description : Option String
  type : Option String
  priority : Option ReqPriority
  status : Option ReqStatus
  tags : Option (List String)
deriving Repr, DecidableEq

/-- The ternary `input.priority === "critical" ? "high" : input.priority`
(part_006 lines 67-68 and 134-135); TS narrowing types the else branch as a
DB priority. -/
def dbPriorityOf : ReqPriority → DbPriority
  | ReqPriority.critical => DbPriority.high
  | ReqPriority.low => DbPriority.low
  | ReqPriority.medium => DbPriority.medium
  | ReqPriority.high => DbPriority.high

/-- `mapDbPriorityToModel` (part_006 lines 238-246): null becomes medium. -/
def mapDbPriorityToModel : Option DbPriority → ReqPriority
  | none => ReqPriority.medium
  | some DbPriority.low => ReqPriority.low
  | some DbPriority.medium => ReqPriority.medium
  | some DbPriority.high => ReqPriority.high

/-- `mapToRequirementModel` (part_006 lines 224-236). -/
def mapToRequirementModel (r : ReqRow) : Requirement :=
  { id := r.id, projectId := r.projectId, title := r.title, description := r.description, type := r.type, priority := mapDbPriorityToModel r.priority, status := r.status, tags := r.tags, createdAt := r.createdAt, updatedAt := r.updatedAt }

/-- `getRequirementById` (part_006 lines 42-58): first row whose id
matches, mapped to the model. -/
def getRequirementById (db : ReqDb) (id : String) : Option Requirement :=
  (db.find? (fun r => r.id = id)).map mapToRequirementModel

/-- `createRequirement` (part_006 lines 60-101): inserts the row with the
mapped priority and hardcoded status "draft", and returns a model built from
the input (priority unmapped, status "draft"); the input's status property
is never read. -/
def createRequirement (db : ReqDb) (input : RequirementInput) (newId : String)
    (now : Nat) : ReqDb × Requirement :=
  (db ++ [{ id := newId, projectId := input.projectId, title := input.title, description := input.description, type := input.type, priority := some (dbPriorityOf input.priority), status := ReqStatus.draft, tags := input.tags.getD [], createdAt := now, updatedAt := now }],
   { id := newId, projectId := input.projectId, title := input.title, description := input.description, type := input.type, priority := input.priority, status := ReqStatus.draft, tags := input.tags.getD [], createdAt := now, updatedAt := now })

/-- The row update built from `updateData` (part_006 lines 112-147): each
supplied field overwrites, priority through the critical-to-high ternary,
updatedAt always refreshed. -/
def applyUpdate (input : UpdateRequirementInput) (now : Nat) (r : ReqRow) : ReqRow :=
  { r with title := input.title.getD r.title, description := input.description.getD r.description, type := input.type.getD r.type, priority := match input.priority with | none => r.priority | some p => some (dbPriorityOf p), status := input.status.getD r.status, tags := input.tags.getD r.tags, updatedAt := now }

/-- `updateRequirement` (part_006 lines 103-158): undefined when the id is
absent, otherwise updates the matching row and re-reads it. -/
def updateRequirement (db : ReqDb) (id : String) (input : UpdateRequirementInput)
    (now : Nat) : ReqDb × Option Requirement :=
  match getRequirementById db id with
  | none => (db, none)
  | some _ =>
      (db.map (fun r => if r.id = id then applyUpdate input now r else r),
       getRequirementById (db.map (fun r => if r.id = id then applyUpdate input now r else r)) id)

/-- A table holding one unrelated row, target of the update call. -/
def c9db : ReqDb :=
  [{ id := "r1", projectId := "P", title := "T0", description := "", type := "functional", priority := some DbPriority.low, status := ReqStatus.draft, tags := [], createdAt := 0, updatedAt := 0 }]

def c9input : RequirementInput :=
  { projectId := "P", title := "T", description := "D", type := "functional", priority := ReqPriority.critical, tags := none, status := none }

def c9upd : UpdateRequirementInput :=
  { title := none, description := none, type := none, priority := some ReqPriority.critical, status := none, tags := none }

/-- Same shape as c9db, target of C10's update call. -/
def c10db : ReqDb :=
  [{ id := "r1", projectId := "P", title := "T0", description := "", type := "functional", priority := some DbPriority.low, status := ReqStatus.draft, tags := [], createdAt := 0, updatedAt := 0 }]

/-- A creation input that tries to supply status "approved". -/
def c10input : RequirementInput :=
  { projectId := "P", title := "T", description := "D", type := "functional", priority := ReqPriority.low, tags := none, status := some ReqStatus.approved }

def c10upd : UpdateRequirementInput :=
  { title := none, description := none, type := none, priority := none, status := some ReqStatus.approved, tags := none }

end ReqStore

/-! Theorems. -/

namespace FileTaskStore

theorem lookup_eq_some {s : Store} {id : String} {t : Task}
    (h : lookup s id = some t) : t ∈ s ∧ t.id = id := by
  refine ⟨List.mem_of_find?_eq_some h, ?_⟩
  have := List.find?_some h
  simpa using this

theorem lookup_eq_none {s : Store} {id : String} :
    lookup s id = none ↔ ∀ u ∈ s, u.id ≠ id := by
  simp [lookup, List.find?_eq_none]

theorem key_unique {s : Store} (hnd : NodupKeys s) {u v : Task}
    (hu : u ∈ s) (hv : v ∈ s) (h : u.id = v.id) : u = v := by
  induction s with
  | nil => cases hu
  | cons a l ih =>
    have hpair : (∀ x ∈ l, ¬ x.id = a.id) ∧ (l.map Task.id).Nodup := by
      simpa [NodupKeys] using hnd
    rcases List.mem_cons.1 hu with rfl | hu' <;>
      rcases List.mem_cons.1 hv with rfl | hv'
    · rfl
    · exact absurd h.symm (hpair.1 v hv')
    · exact absurd h (hpair.1 u hu')
    · exact ih hpair.2 hu' hv'

theorem lookup_of_mem {s : Store} (hnd : NodupKeys s) {t : Task}
    (ht : t ∈ s) : lookup s t.id = some t := by
  rcases h : lookup s t.id with _ | u
  · exact absurd rfl (lookup_eq_none.1 h t ht)
  · rcases lookup_eq_some h with ⟨hu, hid⟩
    exact congrArg some (key_unique hnd hu ht hid)

theorem setTask_present {s : Store} {t : Task}
    (h : ∃ u ∈ s, u.id = t.id) :
    setTask s t = List.map (fun u => if u.id = t.id then t else u) s := by
  rcases h with ⟨u, hu, hid⟩
  have : List.any s (fun u => u.id = t.id) = true := by
    simp only [List.any_eq_true]
    exact ⟨u, hu, by simpa using hid⟩
  simp [setTask, this]

theorem setTask_absent {s : Store} {t : Task}
    (h : ∀ u ∈ s, u.id ≠ t.id) : setTask s t = s ++ [t] := by
  have : List.any s (fun u => u.id = t.id) = false := by
    simp only [List.any_eq_false]
    intro u hu
    simpa using h u hu
  simp [setTask, this]

/-! Generic list lemmas used to reshape map/filter compositions. -/

theorem map_id_of_fix {α : Type} {l : List α} {f : α → α}
    (h : ∀ x ∈ l, f x = x) : l.map f = l := by
  induction l with
  | nil => rfl
  | cons a l ih =>
    simp only [List.map_cons, h a (List.mem_cons_self a l)]
    rw [ih fun x hx => h x (List.mem_cons_of_mem a hx)]

theorem filter_map_comm {α β : Type} {l : List α} {f : α → β} {q : β → Bool}
    {q' : α → Bool} (h : ∀ x ∈ l, q (f x) = q' x) :
    (l.map f).filter q = (l.filter q').map f := by
  induction l with
  | nil => rfl
  | cons a l ih =>
    have ha := h a (List.mem_cons_self a l)
    have ih' := ih fun x hx => h x (List.mem_cons_of_mem a hx)
    by_cases hq : q' a = true
    · have hfa : q (f a) = true := ha.trans hq
      simp [List.map_cons, List.filter_cons, hq, hfa, ih']
    · have hq' : q' a = false := by simpa using hq
      have hfa : q (f a) = false := ha.trans hq'
      simp [List.map_cons, List.filter_cons, hq', hfa, ih']

theorem map_filter_congr {α β : Type} {l : List α} {f g : α → β} {q : β → Bool}
    (hq : ∀ x ∈ l, q (f x) = q (g x))
    (heq : ∀ x ∈ l, q (f x) = true → f x = g x) :
    (l.map f).filter q = (l.map g).filter q := by
  induction l with
  | nil => rfl
  | cons a l ih =>
    have hqa := hq a (List.mem_cons_self a l)
    have ih' := ih (fun x hx => hq x (List.mem_cons_of_mem a hx))
      (fun x hx => heq x (List.mem_cons_of_mem a hx))
    by_cases hfa : q (f a)
    · have hga : q (g a) = true := hqa ▸ hfa
      simp [List.map_cons, List.filter_cons, hfa, hga, ih',
        heq a (List.mem_cons_self a l) hfa]
    · have hfa' : q (f a) = false := by simpa using hfa
      have hga : q (g a) = false := hqa ▸ hfa'
      simp [List.map_cons, List.filter_cons, hfa', hga, ih']

theorem countP_disjoint {α : Type} {l : List α} {p q : α → Bool}
    (h : ∀ x ∈ l, ¬(p x = true ∧ q x = true)) :
    l.countP (fun x => p x || q x) = l.countP p + l.countP q := by
  induction l with
  | nil => rfl
  | cons a l ih =>
    have ih' := ih fun x hx => h x (List.mem_cons_of_mem a hx)
    have ha := h a (List.mem_cons_self a l)
    by_cases hp : p a = true
    · have hq : q a = false := by
        rcases Bool.eq_false_or_eq_true (q a) with h' | h'
        · exact absurd ⟨hp, h'⟩ ha
        · exact h'
      simp only [List.countP_cons, hp, hq, ih']
      simp
      omega
    · have hp' : p a = false := by simpa using hp
      by_cases hq : q a = true
      · simp only [List.countP_cons, hp', hq, ih']
        simp
        omega
      · have hq' : q a = false := by simpa using hq
        simp only [List.countP_cons, hp', hq', ih']
        simp

/-! Preservation of the key and rank structure by id/parent-preserving
maps and by filters. -/

theorem nodupKeys_map {s : Store} {f : Task → Task}
    (hf : ∀ u ∈ s, (f u).id = u.id) (h : NodupKeys s) :
    NodupKeys (s.map f) := by
  have : (s.map f).map Task.id = s.map Task.id := by
    rw [List.map_map]
    exact List.map_congr_left fun u hu => hf u hu
  unfold NodupKeys
  rw [this]
  exact h

theorem nodupKeys_filter {s : Store} {p : Task → Bool} (h : NodupKeys s) :
    NodupKeys (s.filter p) :=
  ((List.filter_sublist s).map Task.id).nodup h

theorem nodupKeys_append_fresh {s : Store} {t : Task} (h : NodupKeys s)
    (ht : ∀ u ∈ s, u.id ≠ t.id) : NodupKeys (s ++ [t]) := by
  unfold NodupKeys at h ⊢
  rw [List.map_append]
  refine List.Nodup.append h (by simp) ?_
  intro x hx hx'
  simp only [List.map_cons, List.map_nil, List.mem_singleton] at hx'
  rcases List.mem_map.1 hx with ⟨u, hu, rfl⟩
  exact ht u hu hx'

theorem rankOk_map {s : Store} {f : Task → Task} {rank : String → Nat}
    (hf : ∀ u ∈ s, (f u).id = u.id ∧ (f u).parentId = u.parentId)
    (h : RankOk s rank) : RankOk (s.map f) rank := by
  intro v hv p hp u hu hid
  rcases List.mem_map.1 hv with ⟨v0, hv0, rfl⟩
  rcases List.mem_map.1 hu with ⟨u0, hu0, rfl⟩
  rw [(hf v0 hv0).1]
  exact h v0 hv0 p (by rw [← (hf v0 hv0).2]; exact hp) u0 hu0
    (by rw [← (hf u0 hu0).1]; exact hid)

theorem rankOk_sublist {s s' : Store} {rank : String → Nat}
    (hsub : ∀ u ∈ s', u ∈ s) (h : RankOk s rank) : RankOk s' rank :=
  fun v hv p hp u hu hid => h v (hsub v hv) p hp u (hsub u hu) hid

theorem rankOk_filter {s : Store} {p : Task → Bool} {rank : String → Nat}
    (h : RankOk s rank) : RankOk (s.filter p) rank :=
  rankOk_sublist (fun u hu => List.mem_of_mem_filter hu) h

/-! Counting tasks by rank: the recursion measure of the cascade. -/

theorem cnt_le_length (s : Store) (rank : String → Nat) (b : Nat) :
    cnt s rank b ≤ s.length :=
  List.length_filter_le _ s

theorem cnt_mono {s : Store} {rank : String → Nat} {b b' : Nat}
    (h : b ≤ b') : cnt s rank b' ≤ cnt s rank b := by
  induction s with
  | nil => simp [cnt]
  | cons a l ih =>
    by_cases hb' : b' ≤ rank a.id
    · have hb : b ≤ rank a.id := le_trans h hb'
      simp [cnt, List.filter_cons, hb, hb'] at ih ⊢
      omega
    · by_cases hb : b ≤ rank a.id <;>
        simp only [cnt, List.filter_cons, decide_eq_true_eq] at ih ⊢ <;>
        simp [hb, hb'] <;> omega

theorem cnt_lt_of_mem (rank : String → Nat) {s : Store} {u : Task}
    (hu : u ∈ s) : cnt s rank (rank u.id + 1) < cnt s rank (rank u.id) := by
  induction s with
  | nil => cases hu
  | cons a l ih =>
    rcases List.mem_cons.1 hu with rfl | hu'
    · have h1 : ¬ (rank u.id + 1 ≤ rank u.id) := by omega
      have hmono : cnt l rank (rank u.id + 1) ≤ cnt l rank (rank u.id) :=
        cnt_mono (by omega)
      simp only [cnt, List.filter_cons, decide_eq_true_eq] at hmono ⊢
      simp [h1]
      omega
    · have := ih hu'
      by_cases ha : rank u.id + 1 ≤ rank a.id
      · have ha' : rank u.id ≤ rank a.id := by omega
        simp only [cnt, List.filter_cons, decide_eq_true_eq] at this ⊢
        simp [ha, ha']
        omega
      · by_cases ha' : rank u.id ≤ rank a.id <;>
          simp only [cnt, List.filter_cons, decide_eq_true_eq] at this ⊢ <;>
          simp [ha, ha'] <;> omega

theorem cnt_pos_of_mem (rank : String → Nat) {s : Store} {u : Task}
    (hu : u ∈ s) : 0 < cnt s rank (rank u.id) := by
  have : u ∈ s.filter (fun v => rank u.id ≤ rank v.id) :=
    List.mem_filter.2 ⟨hu, by simp⟩
  have := List.length_pos_of_mem this
  simpa [cnt] using this

theorem cnt_map {s : Store} {f : Task → Task} {rank : String → Nat} {b : Nat}
    (hf : ∀ u ∈ s, (f u).id = u.id) : cnt (s.map f) rank b = cnt s rank b := by
  unfold cnt
  rw [@filter_map_comm Task Task s f (fun v => b ≤ rank v.id)
    (fun u => b ≤ rank u.id) (fun u hu => by dsimp only; rw [hf u hu])]
  simp

theorem cnt_filter_le (s : Store) (p : Task → Bool) (rank : String → Nat)
    (b : Nat) : cnt (s.filter p) rank b ≤ cnt s rank b := by
  unfold cnt
  exact ((List.filter_sublist s).filter _).length_le

/-! Facts about the descendant relation `InSub`. -/

theorem InSub.mem {s : Store} {root x : String} (h : InSub s root x) :
    x = root ∨ ∃ v ∈ s, v.id = x := by
  cases h with
  | root => exact Or.inl rfl
  | step v hv m hm hsub => exact Or.inr ⟨v, hv, rfl⟩

theorem InSub.elim_step {s : Store} {root x : String} (h : InSub s root x) :
    x = root ∨ ∃ v ∈ s, v.id = x ∧ ∃ m, v.parentId = some m ∧ InSub s root m := by
  cases h with
  | root => exact Or.inl rfl
  | step v hv m hm hsub => exact Or.inr ⟨v, hv, rfl, m, hm, hsub⟩

theorem InSub.rank_lt {s : Store} {rank : String → Nat} {root x : String}
    (hr : RankOk s rank) (hroot : ∃ u ∈ s, u.id = root)
    (h : InSub s root x) :
    x = root ∨ ((∃ v ∈ s, v.id = x) ∧ rank root < rank x) := by
  induction h with
  | root => exact Or.inl rfl
  | step v hv m hm hsub ih =>
    rcases ih with rfl | ⟨⟨u, hu, rfl⟩, hlt⟩
    · rcases hroot with ⟨u, hu, hid⟩
      refine Or.inr ⟨⟨v, hv, rfl⟩, ?_⟩
      have := hr v hv m hm u hu hid
      omega
    · refine Or.inr ⟨⟨v, hv, rfl⟩, ?_⟩
      have := hr v hv u.id hm u hu rfl
      omega

theorem InSub.trans {s : Store} {a b x : String}
    (h1 : InSub s b x) (h2 : InSub s a b) : InSub s a x := by
  induction h1 with
  | root => exact h2
  | step v hv m hm hsub ih => exact InSub.step v hv m hm ih

theorem InSub.decomp {s : Store} {root x : String} (h : InSub s root x) :
    x = root ∨ ∃ t ∈ s, t.parentId = some root ∧ InSub s t.id x := by
  induction h with
  | root => exact Or.inl rfl
  | step v hv m hm hsub ih =>
    rcases ih with rfl | ⟨t, ht, htp, hin⟩
    · exact Or.inr ⟨v, hv, hm, InSub.root⟩
    · exact Or.inr ⟨t, ht, htp, InSub.step v hv m hm hin⟩

theorem InSub_map {s : Store} {f : Task → Task} {root x : String}
    (hf : ∀ u ∈ s, (f u).id = u.id ∧ (f u).parentId = u.parentId) :
    InSub (s.map f) root x ↔ InSub s root x := by
  constructor
  · intro h
    induction h with
    | root => exact InSub.root
    | step v hv m hm hsub ih =>
      rcases List.mem_map.1 hv with ⟨v0, hv0, rfl⟩
      rw [(hf v0 hv0).1]
      exact InSub.step v0 hv0 m ((hf v0 hv0).2.symm.trans hm) ih
  · intro h
    induction h with
    | root => exact InSub.root
    | step v hv m hm hsub ih =>
      have : (f v).id = v.id ∧ (f v).parentId = v.parentId := hf v hv
      have hstep : InSub (s.map f) root (f v).id :=
        InSub.step (f v) (List.mem_map_of_mem f hv) m (this.2.trans hm) ih
      rwa [this.1] at hstep

theorem InSub_filter {s : Store} {p : Task → Bool} {root x : String}
    (hp : ∀ v ∈ s, p v = false → ¬ InSub s root v.id) :
    InSub (s.filter p) root x ↔ InSub s root x := by
  constructor
  · intro h
    induction h with
    | root => exact InSub.root
    | step v hv m hm hsub ih =>
      exact InSub.step v (List.mem_of_mem_filter hv) m hm ih
  · intro h
    induction h with
    | root => exact InSub.root
    | step v hv m hm hsub ih =>
      have hpv : p v = true := by
        rcases Bool.eq_false_or_eq_true (p v) with h' | h'
        · exact h'
        · exact absurd (InSub.step v hv m hm hsub) (hp v hv h')
      exact InSub.step v (List.mem_filter.2 ⟨hv, hpv⟩) m hm ih

/-! The fuel-bounded subtree computation matches the descendant relation. -/

theorem subtreeFuel_char {rank : String → Nat} :
    ∀ fuel (s : Store) (root : String), RankOk s rank →
      (∃ u ∈ s, u.id = root) → cnt s rank (rank root) ≤ fuel →
      ∀ x, x ∈ subtreeFuel fuel s root ↔ InSub s root x := by
  intro fuel
  induction fuel with
  | zero =>
    intro s root hr hroot hcnt x
    rcases hroot with ⟨u, hu, rfl⟩
    exact absurd hcnt (by have := cnt_pos_of_mem rank hu; omega)
  | succ fuel ih =>
    intro s root hr hroot hcnt x
    rcases hroot with ⟨u, hu, huid⟩
    have hchild : ∀ t ∈ List.filter (fun t => t.parentId = some root) s,
        t ∈ s ∧ t.parentId = some root ∧ rank root < rank t.id ∧
          cnt s rank (rank t.id) ≤ fuel := by
      intro t htf
      have ht : t ∈ s := List.mem_of_mem_filter htf
      have htp : t.parentId = some root := by
        have := List.of_mem_filter htf
        simpa using this
      have hlt : rank root < rank t.id := hr t ht root htp u hu huid
      refine ⟨ht, htp, hlt, ?_⟩
      have h1 : cnt s rank (rank t.id) ≤ cnt s rank (rank root + 1) :=
        cnt_mono (by omega)
      have h2 : cnt s rank (rank root + 1) < cnt s rank (rank root) := by
        have := cnt_lt_of_mem rank hu
        rw [huid] at this
        exact this
      omega
    constructor
    · intro hx
      simp only [subtreeFuel, List.mem_cons, List.mem_flatten, List.mem_map] at hx
      rcases hx with rfl | ⟨l, ⟨t, htf, rfl⟩, hxl⟩
      · exact InSub.root
      · rcases hchild t htf with ⟨ht, htp, _, hcnt'⟩
        have hx' : InSub s t.id x :=
          (ih s t.id hr ⟨t, ht, rfl⟩ hcnt' x).1 hxl
        exact hx'.trans (InSub.step t ht root htp InSub.root)
    · intro hx
      rcases hx.decomp with rfl | ⟨t, ht, htp, hin⟩
      · simp [subtreeFuel]
      · have htf : t ∈ List.filter (fun t => t.parentId = some root) s :=
          List.mem_filter.2 ⟨ht, by simpa using htp⟩
        rcases hchild t htf with ⟨_, _, _, hcnt'⟩
        have : x ∈ subtreeFuel fuel s t.id :=
          (ih s t.id hr ⟨t, ht, rfl⟩ hcnt' x).2 hin
        simp only [subtreeFuel, List.mem_cons, List.mem_flatten, List.mem_map]
        exact Or.inr ⟨subtreeFuel fuel s t.id, ⟨t, htf, rfl⟩, this⟩

theorem subtreeIds_char {rank : String → Nat} {s : Store} {root : String}
    (hr : RankOk s rank) (hroot : ∃ u ∈ s, u.id = root) :
    ∀ x, x ∈ subtreeIds s root ↔ InSub s root x :=
  subtreeFuel_char s.length s root hr hroot (cnt_le_length s rank (rank root))

/-- Subtrees of two distinct tasks that share the same parent pointer are
disjoint: each task has exactly one parent, so the descendant trees cannot
meet. -/
theorem sibling_disjoint {s : Store} {rank : String → Nat}
    (hnd : NodupKeys s) (hr : RankOk s rank) {t1 t2 : Task} {pr : String}
    (h1 : t1 ∈ s) (h2 : t2 ∈ s) (hp1 : t1.parentId = some pr)
    (hp2 : t2.parentId = some pr) (hpr : ∃ u ∈ s, u.id = pr)
    (hne : t1.id ≠ t2.id) :
    ∀ x, InSub s t1.id x → InSub s t2.id x → False := by
  rcases hpr with ⟨upr, hupr, hupid⟩
  have hparent_absurd : ∀ t : Task, t ∈ s → t.parentId = some pr →
      InSub s t.id pr → False := by
    intro t ht htp hin
    rcases hin.rank_lt hr ⟨t, ht, rfl⟩ with heq | ⟨_, hlt⟩
    · subst heq
      exact absurd (hr t ht t.id htp t ht rfl) (by omega)
    · exact absurd (hr t ht pr htp upr hupr hupid) (by omega)
  have hone : ∀ ta tb : Task, ta ∈ s → tb ∈ s → ta.parentId = some pr →
      tb.parentId = some pr → ta.id ≠ tb.id → InSub s tb.id ta.id → False := by
    intro ta tb hta htb hpa hpb hab hin
    rcases hin.elim_step with heq | ⟨v, hv, hvid, m, hm, hin'⟩
    · exact hab heq
    · have : v = ta := key_unique hnd hv hta hvid
      subst this
      rw [hpa] at hm
      cases hm
      exact hparent_absurd tb htb hpb hin'
  suffices h : ∀ n x, rank x < n → InSub s t1.id x → InSub s t2.id x → False by
    intro x hx1 hx2
    exact h (rank x + 1) x (by omega) hx1 hx2
  intro n
  induction n with
  | zero => intro x hx; omega
  | succ n ihn =>
    intro x hx hin1 hin2
    by_cases hxa : x = t1.id
    · subst hxa
      exact hone t1 t2 h1 h2 hp1 hp2 hne hin2
    by_cases hxb : x = t2.id
    · subst hxb
      exact hone t2 t1 h2 h1 hp2 hp1 (Ne.symm hne) hin1
    rcases hin1.elim_step with heq | ⟨v1, hv1, hv1id, m1, hm1, hin1'⟩
    · exact hxa heq
    rcases hin2.elim_step with heq | ⟨v2, hv2, hv2id, m2, hm2, hin2'⟩
    · exact hxb heq
    have hv12 : v1 = v2 := key_unique hnd hv1 hv2 (hv1id.trans hv2id.symm)
    subst hv12
    rw [hm1] at hm2
    cases hm2
    have hm1pres : ∃ w ∈ s, w.id = m1 := by
      rcases hin1'.rank_lt hr ⟨t1, h1, rfl⟩ with heq | ⟨hpres, _⟩
      · exact heq ▸ ⟨t1, h1, rfl⟩
      · exact hpres
    rcases hm1pres with ⟨w, hw, hwid⟩
    have hrm : rank m1 < rank x := by
      have := hr v1 hv1 m1 hm1 w hw hwid
      rw [hv1id] at this
      exact this
    exact ihn m1 (by omega) hin1' hin2'

theorem nodupKeys_pairwise {s : Store} (hnd : NodupKeys s) :
    s.Pairwise (fun a b => a.id ≠ b.id) := by
  exact List.pairwise_map.1 hnd

theorem subtreeFuel_nodup {rank : String → Nat} :
    ∀ fuel (s : Store) (root : String), NodupKeys s → RankOk s rank →
      (∃ u ∈ s, u.id = root) → cnt s rank (rank root) ≤ fuel →
      (subtreeFuel fuel s root).Nodup := by
  intro fuel
  induction fuel with
  | zero =>
    intro s root hnd hr hroot hcnt
    rcases hroot with ⟨u, hu, rfl⟩
    exact absurd hcnt (by have := cnt_pos_of_mem rank hu; omega)
  | succ fuel ih =>
    intro s root hnd hr hroot hcnt
    rcases hroot with ⟨u, hu, huid⟩
    have hchild : ∀ t ∈ List.filter (fun t => t.parentId = some root) s,
        t ∈ s ∧ t.parentId = some root ∧ rank root < rank t.id ∧
          cnt s rank (rank t.id) ≤ fuel := by
      intro t htf
      have ht : t ∈ s := List.mem_of_mem_filter htf
      have htp : t.parentId = some root := by
        have := List.of_mem_filter htf
        simpa using this
      have hlt : rank root < rank t.id := hr t ht root htp u hu huid
      refine ⟨ht, htp, hlt, ?_⟩
      have h1 : cnt s rank (rank t.id) ≤ cnt s rank (rank root + 1) :=
        cnt_mono (by omega)
      have h2 : cnt s rank (rank root + 1) < cnt s rank (rank root) := by
        have := cnt_lt_of_mem rank hu
        rw [huid] at this
        exact this
      omega
    rw [subtreeFuel, List.nodup_cons]
    constructor
    · intro hmem
      simp only [List.mem_flatten, List.mem_map] at hmem
      rcases hmem with ⟨l, ⟨t, htf, rfl⟩, hxl⟩
      rcases hchild t htf with ⟨ht, htp, hlt, hcnt'⟩
      have : InSub s t.id root :=
        (subtreeFuel_char fuel s t.id hr ⟨t, ht, rfl⟩ hcnt' root).1 hxl
      rcases this.rank_lt hr ⟨t, ht, rfl⟩ with heq | ⟨_, hlt'⟩
      · subst heq
        exact absurd (hr t ht t.id htp t ht rfl) (by omega)
      · omega
    · rw [List.nodup_flatten]
      constructor
      · intro l hl
        rcases List.mem_map.1 hl with ⟨t, htf, rfl⟩
        rcases hchild t htf with ⟨ht, _, _, hcnt'⟩
        exact ih s t.id hnd hr ⟨t, ht, rfl⟩ hcnt'
      · rw [List.pairwise_map]
        have hpw : (List.filter (fun t => t.parentId = some root) s).Pairwise
            (fun a b => a.id ≠ b.id) :=
          (nodupKeys_pairwise hnd).sublist (List.filter_sublist s)
        refine hpw.imp_of_mem ?_
        intro a b ha hb hne
        rcases hchild a ha with ⟨ha', hap, _, hacnt⟩
        rcases hchild b hb with ⟨hb', hbp, _, hbcnt⟩
        intro x hxa hxb
        have hxa' : InSub s a.id x :=
          (subtreeFuel_char fuel s a.id hr ⟨a, ha', rfl⟩ hacnt x).1 hxa
        have hxb' : InSub s b.id x :=
          (subtreeFuel_char fuel s b.id hr ⟨b, hb', rfl⟩ hbcnt x).1 hxb
        exact sibling_disjoint hnd hr ha' hb' hap hbp ⟨u, hu, huid⟩ hne x
          hxa' hxb'

theorem subtreeIds_nodup {rank : String → Nat} {s : Store} {root : String}
    (hnd : NodupKeys s) (hr : RankOk s rank)
    (hroot : ∃ u ∈ s, u.id = root) : (subtreeIds s root).Nodup :=
  subtreeFuel_nodup s.length s root hnd hr hroot
    (cnt_le_length s rank (rank root))

/-! Canonical forms for the states that arise during a cascade delete. -/

theorem ite_update_id (c : Prop) [Decidable c] (u : Task) (l : List String) :
    (if c then { u with childTasks := l } else u).id = u.id := by
  split <;> rfl

theorem ite_update_parentId (c : Prop) [Decidable c] (u : Task)
    (l : List String) :
    (if c then { u with childTasks := l } else u).parentId = u.parentId := by
  split <;> rfl

theorem bool_eq_of_iff {a b : Bool} (h : a = true ↔ b = true) : a = b :=
  Bool.eq_iff_iff.2 h

theorem remPred_iff {rank : String → Nat} {σ : Store} {cs : List String}
    {u : Task} (hr : RankOk σ rank)
    (hcs : ∀ c ∈ cs, ∃ v ∈ σ, v.id = c) :
    remPred σ cs u = true ↔ ∀ c ∈ cs, ¬ InSub σ c u.id := by
  unfold remPred
  simp only [Bool.not_eq_eq_eq_not, Bool.not_true, List.any_eq_false,
    Bool.not_eq_true]
  constructor
  · intro h c hc hin
    have := h c hc
    rw [← Bool.not_eq_true] at this
    exact this (by
      have hmem : u.id ∈ subtreeIds σ c :=
        (subtreeIds_char hr (hcs c hc) u.id).2 hin
      simpa [List.elem_iff] using hmem)
  · intro h c hc
    rw [← Bool.not_eq_true]
    intro hcon
    have hmem : u.id ∈ subtreeIds σ c := by simpa [List.elem_iff] using hcon
    exact h c hc ((subtreeIds_char hr (hcs c hc) u.id).1 hmem)

/-- `detachParent` written as a pointwise map over the store. -/
theorem detachParent_eq {s : Store} {t : Task} (hnd : NodupKeys s) :
    detachParent s t = s.map (detachAll t) := by
  unfold detachParent detachAll
  rcases hp : t.parentId with _ | pid
  · dsimp only
    exact (map_id_of_fix (fun u _ => by simp)).symm
  · dsimp only
    rcases hl : lookup s pid with _ | parent
    · have hno : ∀ u ∈ s, u.id ≠ pid := lookup_eq_none.1 hl
      refine (map_id_of_fix (fun u hu => ?_)).symm
      have hx : ¬ (some pid = some u.id) := by
        intro h
        exact hno u hu (Option.some.inj h).symm
      simp [hx]
    · rcases lookup_eq_some hl with ⟨hpar, hparid⟩
      dsimp only
      rw [@setTask_present s
        { parent with childTasks := List.filter (fun c => c ≠ t.id) parent.childTasks }
        ⟨parent, hpar, rfl⟩]
      refine List.map_congr_left (fun u hu => ?_)
      by_cases h : u.id = parent.id
      · have hup : u = parent := key_unique hnd hu hpar h
        subst hup
        simp [hparid]
      · have hx : ¬ (some pid = some u.id) := by
          intro h'
          exact h ((Option.some.inj h').symm.trans hparid.symm)
        simp [hx, h]

theorem detachChild_id (tid c : String) (u : Task) :
    (detachChild tid c u).id = u.id := ite_update_id _ u _

theorem detachChild_parentId (tid c : String) (u : Task) :
    (detachChild tid c u).parentId = u.parentId := ite_update_parentId _ u _

theorem detachChild_pres (tid c : String) {σ : Store} : ∀ u ∈ σ,
    (detachChild tid c u).id = u.id ∧
      (detachChild tid c u).parentId = u.parentId :=
  fun u _ => ⟨detachChild_id tid c u, detachChild_parentId tid c u⟩

theorem detachAll_id (t u : Task) : (detachAll t u).id = u.id :=
  ite_update_id _ u _

theorem detachAll_parentId (t u : Task) :
    (detachAll t u).parentId = u.parentId :=
  ite_update_parentId _ u _

theorem detachAll_pres (t : Task) {σ : Store} : ∀ u ∈ σ,
    (detachAll t u).id = u.id ∧ (detachAll t u).parentId = u.parentId :=
  fun u _ => ⟨detachAll_id t u, detachAll_parentId t u⟩

theorem deleteResult_eq_removeSub {σ : Store} {tid c : String} {v : Task}
    (hvid : v.id = c) (hvp : v.parentId = some tid) :
    deleteResult σ v = removeSub σ tid c := by
  unfold deleteResult removeSub detachChild detachAll
  rw [hvid, hvp]
  congr 1
  refine List.map_congr_left (fun u hu => ?_)
  by_cases h : u.id = tid
  · have h2 : some tid = some u.id := by rw [h]
    simp [h, h2]
  · have h2 : ¬ (some tid = some u.id) := fun hh => h (Option.some.inj hh).symm
    simp [h, h2]

theorem delete_fold_eq {rank : String → Nat} {fuel : Nat}
    (IH : ∀ (s : Store) (id : String) (t : Task),
      NodupKeys s → RankOk s rank → SubChildrenOk s id →
      lookup s id = some t → cnt s rank (rank id) < fuel →
      deleteTaskFuel fuel s id = (deleteResult s t, true)) :
    ∀ (cs : List String) (σ : Store) (tid : String),
      cs.Nodup → NodupKeys σ → RankOk σ rank →
      (∃ u ∈ σ, u.id = tid) →
      (∀ c ∈ cs, ∃ v ∈ σ, v.id = c ∧ v.parentId = some tid) →
      (∀ c ∈ cs, SubChildrenOk σ c) →
      cnt σ rank (rank tid) ≤ fuel →
      List.foldl (fun acc c => (deleteTaskFuel fuel acc c).1) σ cs
        = List.filter (remPred σ cs) (modChild tid cs σ) := by
  intro cs
  induction cs with
  | nil =>
    intro σ tid hcsnd hnd hr hpres hcs hlc hcnt
    have h1 : modChild tid [] σ = σ := by
      refine map_id_of_fix (fun u hu => ?_)
      by_cases h : u.id = tid
      · rw [if_pos h]
        have hf : List.filter (fun ch => ch ∉ ([] : List String)) u.childTasks
            = u.childTasks := by simp
        rw [hf]
      · rw [if_neg h]
    have h2 : List.filter (remPred σ []) σ = σ := by
      refine List.filter_eq_self.2 (fun u hu => ?_)
      simp [remPred]
    simp only [List.foldl_nil, h1, h2]
  | cons c cs ihl =>
    intro σ tid hcsnd hnd hr hpres hcs hlc hcnt
    obtain ⟨u0, hu0, hu0id⟩ := hpres
    obtain ⟨v, hv, hvid, hvp⟩ := hcs c (List.mem_cons_self c cs)
    have hlook : lookup σ c = some v := by
      rw [← hvid]; exact lookup_of_mem hnd hv
    have hrlt : rank tid < rank c := by
      have := hr v hv tid hvp u0 hu0 hu0id
      rwa [hvid] at this
    have hcnttid : cnt σ rank (rank tid + 1) < cnt σ rank (rank tid) := by
      have := cnt_lt_of_mem rank hu0
      rwa [hu0id] at this
    have hcntc : cnt σ rank (rank c) < fuel := by
      have h1 : cnt σ rank (rank c) ≤ cnt σ rank (rank tid + 1) :=
        cnt_mono (by omega)
      omega
    have hdel := IH σ c v hnd hr (hlc c (List.mem_cons_self c cs)) hlook hcntc
    -- the state after deleting the first child subtree
    have hstep : List.foldl (fun acc c => (deleteTaskFuel fuel acc c).1) σ (c :: cs)
        = List.foldl (fun acc c => (deleteTaskFuel fuel acc c).1)
            (removeSub σ tid c) cs := by
      rw [List.foldl_cons, hdel, deleteResult_eq_removeSub hvid hvp]
    rw [hstep]
    -- facts about σ₁ := removeSub σ tid c
    have hgpres : ∀ u ∈ σ, (detachChild tid c u).id = u.id ∧
        (detachChild tid c u).parentId = u.parentId := detachChild_pres tid c
    have hqc_iff : ∀ z, (subtreeIds σ c).contains z = true ↔ InSub σ c z := by
      intro z
      rw [List.elem_iff]
      exact subtreeIds_char hr ⟨v, hv, hvid⟩ z
    have hmem₁ : ∀ w ∈ σ, ¬ InSub σ c w.id →
        detachChild tid c w ∈ removeSub σ tid c := by
      intro w hw hnot
      refine List.mem_filter.2 ⟨List.mem_map_of_mem (detachChild tid c) hw, ?_⟩
      simp only [detachChild_id, decide_eq_true_eq]
      intro hcon
      exact hnot ((hqc_iff w.id).1 hcon)
    have hmem₂ : ∀ w ∈ removeSub σ tid c,
        ∃ w₀ ∈ σ, w = detachChild tid c w₀ ∧ ¬ InSub σ c w₀.id := by
      intro w hw
      rcases List.mem_filter.1 hw with ⟨hwm, hwp⟩
      rcases List.mem_map.1 hwm with ⟨w₀, hw₀, rfl⟩
      refine ⟨w₀, hw₀, rfl, ?_⟩
      simp only [detachChild_id, decide_eq_true_eq] at hwp
      intro hin
      exact hwp ((hqc_iff w₀.id).2 hin)
    have hnd₁ : NodupKeys (removeSub σ tid c) :=
      nodupKeys_filter (nodupKeys_map (fun u hu => (hgpres u hu).1) hnd)
    have hr₁ : RankOk (removeSub σ tid c) rank :=
      rankOk_filter (rankOk_map hgpres hr)
    have hnotid : ¬ InSub σ c tid := by
      intro hin
      rcases hin.rank_lt hr ⟨v, hv, hvid⟩ with heq | ⟨_, hlt⟩
      · subst heq
        omega
      · omega
    have htid₁ : ∃ u ∈ removeSub σ tid c, u.id = tid := by
      refine ⟨detachChild tid c u0, hmem₁ u0 hu0 (by rw [hu0id]; exact hnotid), ?_⟩
      exact (detachChild_id tid c u0).trans hu0id
    have hdisj : ∀ c' ∈ cs, ∀ z, InSub σ c z → InSub σ c' z → False := by
      intro c' hc' z
      obtain ⟨v', hv', hv'id, hv'p⟩ := hcs c' (List.mem_cons_of_mem c hc')
      have hne : c ≠ c' := fun he => (List.nodup_cons.1 hcsnd).1 (he ▸ hc')
      have hneids : v.id ≠ v'.id := by rw [hvid, hv'id]; exact hne
      have := sibling_disjoint hnd hr hv hv' hvp hv'p ⟨u0, hu0, hu0id⟩ hneids z
      rw [hvid, hv'id] at this
      exact this
    have htrans : ∀ c' ∈ cs, ∀ z,
        InSub (removeSub σ tid c) c' z ↔ InSub σ c' z := by
      intro c' hc' z
      unfold removeSub
      rw [InSub_filter ?hfc, InSub_map hgpres]
      case hfc =>
        intro w hwm hwf
        rcases List.mem_map.1 hwm with ⟨w₀, hw₀, rfl⟩
        simp only [detachChild_id, decide_eq_false_iff_not, not_not] at hwf
        rw [InSub_map hgpres, detachChild_id]
        exact fun hin => hdisj c' hc' w₀.id ((hqc_iff w₀.id).1 hwf) hin
    have hcs₁ : ∀ c' ∈ cs, ∃ v' ∈ removeSub σ tid c,
        v'.id = c' ∧ v'.parentId = some tid := by
      intro c' hc'
      obtain ⟨v', hv', hv'id, hv'p⟩ := hcs c' (List.mem_cons_of_mem c hc')
      have hnot : ¬ InSub σ c v'.id := by
        rw [hv'id]
        exact fun hin => hdisj c' hc' c' hin InSub.root
      exact ⟨detachChild tid c v', hmem₁ v' hv' hnot,
        (detachChild_id tid c v').trans hv'id,
        (detachChild_parentId tid c v').trans hv'p⟩
    have hlc₁ : ∀ c' ∈ cs, SubChildrenOk (removeSub σ tid c) c' := by
      intro c' hc' w hw hwin
      obtain ⟨w₀, hw₀, rfl, hnotc⟩ := hmem₂ w hw
      rw [detachChild_id] at hwin
      have hin : InSub σ c' w₀.id := (htrans c' hc' w₀.id).1 hwin
      obtain ⟨v', hv', hv'id, hv'p⟩ := hcs c' (List.mem_cons_of_mem c hc')
      have hrc' : rank tid < rank c' := by
        have := hr v' hv' tid hv'p u0 hu0 hu0id
        rwa [hv'id] at this
      have hwtid : w₀.id ≠ tid := by
        rcases hin.rank_lt hr ⟨v', hv', hv'id⟩ with heq | ⟨_, hlt⟩
        · intro he
          rw [he] at heq
          rw [← heq] at hrc'
          omega
        · intro he
          rw [he] at hlt
          omega
      have hgw : detachChild tid c w₀ = w₀ := by
        unfold detachChild
        rw [if_neg hwtid]
      rw [hgw]
      have hTC : TaskChildrenOk σ w₀ :=
        hlc c' (List.mem_cons_of_mem c hc') w₀ hw₀ hin
      refine ⟨hTC.1, fun ch => ?_⟩
      constructor
      · intro hch
        obtain ⟨x, hx, hxid, hxp⟩ := (hTC.2 ch).1 hch
        have hxnot : ¬ InSub σ c x.id := by
          intro hxin
          exact hdisj c' hc' x.id hxin (InSub.step x hx w₀.id hxp hin)
        exact ⟨detachChild tid c x, hmem₁ x hx hxnot,
          (detachChild_id tid c x).trans hxid,
          (detachChild_parentId tid c x).trans hxp⟩
      · rintro ⟨w', hw', hw'id, hw'p⟩
        obtain ⟨x₀, hx₀, rfl, hx₀not⟩ := hmem₂ w' hw'
        exact (hTC.2 ch).2 ⟨x₀, hx₀,
          (detachChild_id tid c x₀).symm.trans hw'id,
          (detachChild_parentId tid c x₀).symm.trans hw'p⟩
    have hcnt₁ : cnt (removeSub σ tid c) rank (rank tid) ≤ fuel := by
      have h2 : cnt (σ.map (detachChild tid c)) rank (rank tid)
          = cnt σ rank (rank tid) :=
        cnt_map (fun u hu => (hgpres u hu).1)
      unfold removeSub
      refine le_trans (cnt_filter_le _ _ rank (rank tid)) ?_
      rw [h2]
      exact hcnt
    have hfold := ihl (removeSub σ tid c) tid (List.nodup_cons.1 hcsnd).2
      hnd₁ hr₁ htid₁ hcs₁ hlc₁ hcnt₁
    rw [hfold]
    have hS1 : modChild tid cs (removeSub σ tid c)
        = List.filter (fun u => ¬ (subtreeIds σ c).contains u.id)
            (modChild tid cs (σ.map (detachChild tid c))) := by
      unfold removeSub modChild
      exact (filter_map_comm (fun x hx => by simp only [ite_update_id])).symm
    have hS2 : modChild tid cs (σ.map (detachChild tid c))
        = modChild tid (c :: cs) σ := by
      unfold modChild
      rw [List.map_map]
      refine List.map_congr_left (fun u hu => ?_)
      by_cases h : u.id = tid
      · have hd : detachChild tid c u
            = { u with childTasks := List.filter (fun ch => ch ≠ c) u.childTasks } := by
          unfold detachChild
          rw [if_pos h]
        have h3 : List.filter (fun ch => ch ∉ cs)
              (List.filter (fun ch => ch ≠ c) u.childTasks)
            = List.filter (fun ch => ch ∉ (c :: cs)) u.childTasks := by
          rw [List.filter_filter]
          refine List.filter_congr (fun a ha => ?_)
          by_cases h1 : a = c <;> by_cases h2 : a ∈ cs <;> simp [h1, h2]
        have hid : (detachChild tid c u).id = tid := by
          rw [detachChild_id]
          exact h
        rw [hd] at hid
        simp only [Function.comp_apply, hd]
        rw [if_pos hid, if_pos h]
        rw [h3]
      · have hd : detachChild tid c u = u := by
          unfold detachChild
          rw [if_neg h]
        simp only [Function.comp_apply, hd]
        rw [if_neg h, if_neg h]
    rw [hS1, hS2, List.filter_filter]
    refine List.filter_congr (fun u hu => ?_)
    apply bool_eq_of_iff
    rw [Bool.and_eq_true]
    rw [remPred_iff hr₁ (fun c' hc' => by
      obtain ⟨v', h1, h2, _⟩ := hcs₁ c' hc'
      exact ⟨v', h1, h2⟩)]
    rw [remPred_iff hr (fun c'' hc'' => by
      obtain ⟨v'', h1, h2, _⟩ := hcs c'' hc''
      exact ⟨v'', h1, h2⟩)]
    simp only [decide_eq_true_eq, hqc_iff u.id, List.forall_mem_cons]
    constructor
    · rintro ⟨h1, h2⟩
      exact ⟨h2, fun x hx hin => h1 x hx ((htrans x hx u.id).2 hin)⟩
    · rintro ⟨h1, h2⟩
      exact ⟨fun x hx hin => h2 x hx ((htrans x hx u.id).1 hin), h1⟩

theorem deleteTaskFuel_succ (fuel : Nat) (s : Store) (id : String) :
    deleteTaskFuel (fuel + 1) s id =
      match lookup s id with
      | none => (s, false)
      | some t =>
        (eraseTask (List.foldl (fun acc c => (deleteTaskFuel fuel acc c).1)
          (detachParent s t) t.childTasks) id, true) := rfl

/-- Cascade-delete characterization: on a store whose keys are distinct,
whose parent graph has a ranking, and whose child lists agree with the
parent pointers inside the subtree of `id`, `deleteTask` removes exactly
the subtree of `id`, detaches `id` from its parent, and returns `true`. -/
theorem deleteTaskFuel_eq {rank : String → Nat} :
    ∀ (fuel : Nat) (s : Store) (id : String) (t : Task),
      NodupKeys s → RankOk s rank → SubChildrenOk s id →
      lookup s id = some t → cnt s rank (rank id) < fuel →
      deleteTaskFuel fuel s id = (deleteResult s t, true) := by
  intro fuel
  induction fuel with
  | zero =>
    intro s id t _ _ _ _ hcnt
    omega
  | succ fuel IH =>
    intro s id t hnd hr hsc hlook hcnt
    obtain ⟨ht, htid⟩ := lookup_eq_some hlook
    subst htid
    have hself : t.parentId ≠ some t.id := by
      intro hps
      have := hr t ht t.id hps t ht rfl
      omega
    have htc : TaskChildrenOk s t := hsc t ht InSub.root
    have hdpres := detachAll_pres t (σ := s)
    have hnd' : NodupKeys (s.map (detachAll t)) :=
      nodupKeys_map (fun u hu => (hdpres u hu).1) hnd
    have hr' : RankOk (s.map (detachAll t)) rank := rankOk_map hdpres hr
    have htrans' : ∀ z x, InSub (s.map (detachAll t)) z x ↔ InSub s z x :=
      fun z x => InSub_map hdpres
    have hinsub_of_child : ∀ c ∈ t.childTasks, ∀ z, InSub s c z →
        InSub s t.id z := by
      intro c hc z hz
      obtain ⟨v, hv, hvid, hvp⟩ := (htc.2 c).1 hc
      have hstep : InSub s t.id v.id :=
        InSub.step v hv t.id hvp InSub.root
      rw [hvid] at hstep
      exact hz.trans hstep
    have hpres' : ∃ u ∈ s.map (detachAll t), u.id = t.id :=
      ⟨detachAll t t, List.mem_map_of_mem (detachAll t) ht, detachAll_id t t⟩
    have hcs' : ∀ c ∈ t.childTasks, ∃ v ∈ s.map (detachAll t),
        v.id = c ∧ v.parentId = some t.id := by
      intro c hc
      obtain ⟨v, hv, hvid, hvp⟩ := (htc.2 c).1 hc
      exact ⟨detachAll t v, List.mem_map_of_mem (detachAll t) hv,
        (detachAll_id t v).trans hvid, (detachAll_parentId t v).trans hvp⟩
    have hfix : ∀ w₀ ∈ s, InSub s t.id w₀.id → detachAll t w₀ = w₀ := by
      intro w₀ hw₀ hin
      have hcond : ¬ (t.parentId = some w₀.id) := by
        intro hps
        have h1 : rank w₀.id < rank t.id := hr t ht w₀.id hps w₀ hw₀ rfl
        rcases hin.rank_lt hr ⟨t, ht, rfl⟩ with heq | ⟨_, h2⟩
        · rw [heq] at hps
          exact hself hps
        · omega
      unfold detachAll
      rw [if_neg hcond]
    have hlc' : ∀ c ∈ t.childTasks, SubChildrenOk (s.map (detachAll t)) c := by
      intro c hc w hw hwin
      rcases List.mem_map.1 hw with ⟨w₀, hw₀, rfl⟩
      rw [detachAll_id] at hwin
      have hin : InSub s c w₀.id := (htrans' c w₀.id).1 hwin
      have hintid : InSub s t.id w₀.id := hinsub_of_child c hc w₀.id hin
      have htcw : TaskChildrenOk s w₀ := hsc w₀ hw₀ hintid
      have hfw : detachAll t w₀ = w₀ := hfix w₀ hw₀ hintid
      rw [hfw]
      refine ⟨htcw.1, fun ch => ?_⟩
      constructor
      · intro hch
        obtain ⟨x, hx, hxid, hxp⟩ := (htcw.2 ch).1 hch
        exact ⟨detachAll t x, List.mem_map_of_mem (detachAll t) hx,
          (detachAll_id t x).trans hxid, (detachAll_parentId t x).trans hxp⟩
      · rintro ⟨w', hw', hw'id, hw'p⟩
        rcases List.mem_map.1 hw' with ⟨x₀, hx₀, rfl⟩
        exact (htcw.2 ch).2 ⟨x₀, hx₀, (detachAll_id t x₀).symm.trans hw'id,
          (detachAll_parentId t x₀).symm.trans hw'p⟩
    have hcnt' : cnt (s.map (detachAll t)) rank (rank t.id) ≤ fuel := by
      rw [cnt_map (fun u hu => (hdpres u hu).1)]
      omega
    have main := delete_fold_eq IH t.childTasks (s.map (detachAll t)) t.id
      htc.1 hnd' hr' hpres' hcs' hlc' hcnt'
    rw [deleteTaskFuel_succ, hlook]
    dsimp only
    rw [detachParent_eq hnd, main]
    simp only [Prod.mk.injEq, and_true]
    unfold eraseTask deleteResult modChild
    rw [List.filter_filter, List.map_map]
    have hQ : ∀ u : Task,
        ((u.id ≠ t.id : Bool) && remPred (s.map (detachAll t)) t.childTasks u)
          = (¬ (subtreeIds s t.id).contains u.id : Bool) := by
      intro u
      apply bool_eq_of_iff
      rw [Bool.and_eq_true]
      rw [remPred_iff hr' (fun c hc => by
        obtain ⟨v', h1, h2, _⟩ := hcs' c hc
        exact ⟨v', h1, h2⟩)]
      have hsub_iff : ∀ z, (subtreeIds s t.id).contains z = true ↔
          InSub s t.id z := by
        intro z
        rw [List.elem_iff]
        exact subtreeIds_char hr ⟨t, ht, rfl⟩ z
      simp only [decide_eq_true_eq, hsub_iff u.id]
      constructor
      · rintro ⟨h1, h2⟩ hin
        rcases hin.decomp with heq | ⟨w, hw, hwp, hwin⟩
        · exact h1 heq
        · have hwL : w.id ∈ t.childTasks := (htc.2 w.id).2 ⟨w, hw, rfl, hwp⟩
          exact h2 w.id hwL ((htrans' w.id u.id).2 hwin)
      · intro hnot
        refine ⟨fun he => hnot (he ▸ InSub.root), fun c hc hin => ?_⟩
        exact hnot (hinsub_of_child c hc u.id ((htrans' c u.id).1 hin))
    rw [List.filter_congr (fun u _ => hQ u)]
    refine map_filter_congr (fun x hx => ?_) (fun x hx hqx => ?_)
    · simp only [Function.comp_apply]
      simp only [ite_update_id]
    · have hxid : ¬ InSub s t.id x.id := by
        have hsub_iff : (subtreeIds s t.id).contains x.id = true ↔
            InSub s t.id x.id := by
          rw [List.elem_iff]
          exact subtreeIds_char hr ⟨t, ht, rfl⟩ x.id
        simp only [Function.comp_apply] at hqx
        simp only [ite_update_id] at hqx
        simp only [detachAll_id, decide_eq_true_eq] at hqx
        exact fun hin => hqx (hsub_iff.2 hin)
      have hne : (detachAll t x).id ≠ t.id := by
        rw [detachAll_id]
        intro he
        exact hxid (he ▸ InSub.root)
      simp only [Function.comp_apply]
      rw [if_neg hne]


/-! Membership in the delete result, and preservation of the invariant. -/

theorem mem_deleteResult_intro {rank : String → Nat} {s : Store} {t : Task}
    (hr : RankOk s rank) (ht : t ∈ s) {w : Task} (hw : w ∈ s)
    (hnot : ¬ InSub s t.id w.id) : detachAll t w ∈ deleteResult s t := by
  refine List.mem_filter.2 ⟨List.mem_map_of_mem (detachAll t) hw, ?_⟩
  simp only [detachAll_id, decide_eq_true_eq]
  intro hcon
  have hmem : w.id ∈ subtreeIds s t.id := by simpa [List.elem_iff] using hcon
  exact hnot ((subtreeIds_char hr ⟨t, ht, rfl⟩ w.id).1 hmem)

theorem mem_deleteResult_elim {rank : String → Nat} {s : Store} {t : Task}
    (hr : RankOk s rank) (ht : t ∈ s) {w : Task}
    (hw : w ∈ deleteResult s t) :
    ∃ w₀ ∈ s, w = detachAll t w₀ ∧ ¬ InSub s t.id w₀.id := by
  rcases List.mem_filter.1 hw with ⟨hwm, hwp⟩
  rcases List.mem_map.1 hwm with ⟨w₀, hw₀, rfl⟩
  refine ⟨w₀, hw₀, rfl, ?_⟩
  simp only [detachAll_id, decide_eq_true_eq] at hwp
  intro hin
  exact hwp (by
    have hmem : w₀.id ∈ subtreeIds s t.id :=
      (subtreeIds_char hr ⟨t, ht, rfl⟩ w₀.id).2 hin
    simpa [List.elem_iff] using hmem)

theorem deleteResult_childrenOk {rank : String → Nat} {s : Store} {t : Task}
    (hnd : NodupKeys s) (hr : RankOk s rank) (hco : ChildrenOk s)
    (ht : t ∈ s) : ChildrenOk (deleteResult s t) := by
  intro w hw
  obtain ⟨w₀, hw₀, rfl, hnot⟩ := mem_deleteResult_elim hr ht hw
  have htcw : TaskChildrenOk s w₀ := hco w₀ hw₀
  have hsurv : ∀ x ∈ s, x.parentId = some w₀.id → x.id ≠ t.id →
      ¬ InSub s t.id x.id := by
    intro x hx hxp hne hin
    rcases hin.elim_step with heq | ⟨y, hy, hyid, m, hym, hymin⟩
    · exact hne heq
    · have hyx : y = x := key_unique hnd hy hx hyid
      subst hyx
      rw [hxp] at hym
      cases hym
      exact hnot hymin
  by_cases hcond : t.parentId = some w₀.id
  · have hw' : detachAll t w₀ = { w₀ with childTasks := List.filter (fun c => c ≠ t.id) w₀.childTasks } := by
      unfold detachAll
      rw [if_pos hcond]
    rw [hw']
    refine ⟨htcw.1.filter _, fun ch => ?_⟩
    constructor
    · intro hch
      rcases List.mem_filter.1 hch with ⟨hch0, hchne⟩
      have hchne' : ch ≠ t.id := by simpa using hchne
      obtain ⟨x, hx, hxid, hxp⟩ := (htcw.2 ch).1 hch0
      have hxne : x.id ≠ t.id := by rw [hxid]; exact hchne'
      have hxnot := hsurv x hx hxp hxne
      exact ⟨detachAll t x, mem_deleteResult_intro hr ht hx hxnot,
        (detachAll_id t x).trans hxid, (detachAll_parentId t x).trans hxp⟩
    · rintro ⟨w', hw', hw'id, hw'p⟩
      obtain ⟨x₀, hx₀, rfl, hx₀not⟩ := mem_deleteResult_elim hr ht hw'
      have hx₀id : x₀.id = ch := (detachAll_id t x₀).symm.trans hw'id
      have hx₀p : x₀.parentId = some w₀.id :=
        (detachAll_parentId t x₀).symm.trans hw'p
      have hch0 : ch ∈ w₀.childTasks := (htcw.2 ch).2 ⟨x₀, hx₀, hx₀id, hx₀p⟩
      refine List.mem_filter.2 ⟨hch0, ?_⟩
      simp only [decide_eq_true_eq]
      intro he
      apply hx₀not
      rw [hx₀id, he]
      exact InSub.root
  · have hw' : detachAll t w₀ = w₀ := by
      unfold detachAll
      rw [if_neg hcond]
    rw [hw']
    refine ⟨htcw.1, fun ch => ?_⟩
    constructor
    · intro hch
      obtain ⟨x, hx, hxid, hxp⟩ := (htcw.2 ch).1 hch
      have hxne : x.id ≠ t.id := by
        intro he
        have hxt : x = t := key_unique hnd hx ht he
        subst hxt
        exact hcond hxp
      have hxnot := hsurv x hx hxp hxne
      exact ⟨detachAll t x, mem_deleteResult_intro hr ht hx hxnot,
        (detachAll_id t x).trans hxid, (detachAll_parentId t x).trans hxp⟩
    · rintro ⟨w', hw', hw'id, hw'p⟩
      obtain ⟨x₀, hx₀, rfl, _⟩ := mem_deleteResult_elim hr ht hw'
      exact (htcw.2 ch).2 ⟨x₀, hx₀, (detachAll_id t x₀).symm.trans hw'id,
        (detachAll_parentId t x₀).symm.trans hw'p⟩

/-- Appending a fresh task whose parent pointer resolves to no stored task
(or is absent) preserves the invariant. -/
theorem inv_snoc {s : Store} {task : Task} (hInv : Inv s)
    (hid : ∀ u ∈ s, u.id ≠ task.id)
    (hpar : ∀ u ∈ s, u.parentId ≠ some task.id)
    (hchild : task.childTasks = [])
    (hself : task.parentId ≠ some task.id)
    (hnoparent : ∀ p, task.parentId = some p → ∀ u ∈ s, u.id ≠ p) :
    Inv (s ++ [task]) := by
  obtain ⟨hnd, ⟨rank, hr⟩, hco⟩ := hInv
  refine ⟨nodupKeys_append_fresh hnd hid, ?_, ?_⟩
  · refine ⟨fun x => if x = task.id then 0 else rank x, ?_⟩
    intro v hv p hp u hu hidp
    rcases List.mem_append.1 hv with hv' | hv' <;>
      rcases List.mem_append.1 hu with hu' | hu'
    · have h1 : v.id ≠ task.id := hid v hv'
      have h2 : p ≠ task.id := by
        rw [← hidp]
        exact hid u hu'
      simp only [if_neg h2, if_neg h1]
      exact hr v hv' p hp u hu' hidp
    · rcases List.mem_singleton.1 hu' with rfl
      rw [← hidp] at hp
      exact absurd hp (hpar v hv')
    · rcases List.mem_singleton.1 hv' with rfl
      exact absurd hidp (hnoparent p hp u hu')
    · rcases List.mem_singleton.1 hv' with rfl
      rcases List.mem_singleton.1 hu' with rfl
      rw [← hidp] at hp
      exact absurd hp hself
  · intro u hu
    rcases List.mem_append.1 hu with hu' | hu'
    · have htc := hco u hu'
      refine ⟨htc.1, fun ch => ?_⟩
      constructor
      · intro hch
        obtain ⟨w, hw, hwid, hwp⟩ := (htc.2 ch).1 hch
        exact ⟨w, List.mem_append_left _ hw, hwid, hwp⟩
      · rintro ⟨w, hw, hwid, hwp⟩
        rcases List.mem_append.1 hw with hw' | hw'
        · exact (htc.2 ch).2 ⟨w, hw', hwid, hwp⟩
        · rcases List.mem_singleton.1 hw' with rfl
          exact absurd rfl (hnoparent u.id hwp u hu')
    · rcases List.mem_singleton.1 hu' with rfl
      refine ⟨by rw [hchild]; exact List.nodup_nil, fun ch => ?_⟩
      rw [hchild]
      simp only [List.not_mem_nil, false_iff]
      rintro ⟨w, hw, hwid, hwp⟩
      rcases List.mem_append.1 hw with hw' | hw'
      · exact hpar w hw' hwp
      · rcases List.mem_singleton.1 hw' with rfl
        exact hself hwp

/-- Appending a fresh task whose parent is found in the store (and gets the
new id pushed onto its child list) preserves the invariant. -/
theorem inv_snoc_parent {s : Store} {parent task pm : Task} (hInv : Inv s)
    (hparent : parent ∈ s)
    (hpm : pm = { parent with childTasks := parent.childTasks ++ [task.id] })
    (hid : ∀ u ∈ s, u.id ≠ task.id)
    (hpar : ∀ u ∈ s, u.parentId ≠ some task.id)
    (hchild : task.childTasks = [])
    (htp : task.parentId = some parent.id) :
    Inv ((s.map (fun u => if u.id = pm.id then pm else u)) ++ [task]) := by
  obtain ⟨hnd, ⟨rank, hr⟩, hco⟩ := hInv
  have hpmid : pm.id = parent.id := by rw [hpm]
  have hpmpar : pm.parentId = parent.parentId := by rw [hpm]
  have hpmch : pm.childTasks = parent.childTasks ++ [task.id] := by rw [hpm]
  have hself : task.parentId ≠ some task.id := by
    rw [htp]
    intro h
    exact hid parent hparent (Option.some.inj h)
  have hreppres : ∀ u ∈ s,
      ((if u.id = pm.id then pm else u).id = u.id ∧
        (if u.id = pm.id then pm else u).parentId = u.parentId) := by
    intro u hu
    by_cases h : u.id = pm.id
    · have hup : u = parent := key_unique hnd hu hparent (h.trans hpmid)
      rw [if_pos h, hup]
      exact ⟨hpmid, hpmpar⟩
    · rw [if_neg h]
      exact ⟨rfl, rfl⟩
  have hmapid : ∀ w ∈ s.map (fun u => if u.id = pm.id then pm else u),
      ∃ w₀ ∈ s, w.id = w₀.id ∧ w.parentId = w₀.parentId := by
    intro w hw
    rcases List.mem_map.1 hw with ⟨w₀, hw₀, rfl⟩
    exact ⟨w₀, hw₀, (hreppres w₀ hw₀).1, (hreppres w₀ hw₀).2⟩
  refine ⟨?_, ?_, ?_⟩
  · refine nodupKeys_append_fresh
      (nodupKeys_map (fun u hu => (hreppres u hu).1) hnd) ?_
    intro w hw
    rcases hmapid w hw with ⟨w₀, hw₀, hwid, _⟩
    rw [hwid]
    exact hid w₀ hw₀
  · refine ⟨fun x => if x = task.id then rank parent.id + 1 else rank x, ?_⟩
    intro v hv p hp u hu hidp
    rcases List.mem_append.1 hv with hv' | hv' <;>
      rcases List.mem_append.1 hu with hu' | hu'
    · rcases hmapid v hv' with ⟨v₀, hv₀, hvid, hvpar⟩
      rcases hmapid u hu' with ⟨u₀, hu₀, huid, _⟩
      have h1 : v.id ≠ task.id := by rw [hvid]; exact hid v₀ hv₀
      have h2 : p ≠ task.id := by
        rw [← hidp, huid]
        exact hid u₀ hu₀
      simp only [if_neg h2, if_neg h1]
      rw [hvid]
      exact hr v₀ hv₀ p (by rw [← hvpar]; exact hp) u₀ hu₀ (by rw [← huid, hidp])
    · rcases List.mem_singleton.1 hu' with rfl
      rw [← hidp] at hp
      rcases hmapid v hv' with ⟨v₀, hv₀, _, hvpar⟩
      rw [hvpar] at hp
      exact absurd hp (hpar v₀ hv₀)
    · have hvt : v = task := List.mem_singleton.1 hv'
      rw [hvt, htp] at hp
      have hpp : p = parent.id := (Option.some.inj hp).symm
      have hpne : p ≠ task.id := by
        rw [hpp]
        exact hid parent hparent
      rw [hvt]
      show (if p = task.id then rank parent.id + 1 else rank p)
        < (if task.id = task.id then rank parent.id + 1 else rank task.id)
      rw [if_neg hpne, if_pos rfl, hpp]
      omega
    · rcases List.mem_singleton.1 hv' with rfl
      rcases List.mem_singleton.1 hu' with rfl
      rw [← hidp] at hp
      exact absurd hp hself
  · intro w hw
    rcases List.mem_append.1 hw with hw' | hw'
    · rcases List.mem_map.1 hw' with ⟨u₀, hu₀, rfl⟩
      by_cases h : u₀.id = pm.id
      · have hup : u₀ = parent := key_unique hnd hu₀ hparent (h.trans hpmid)
        subst hup
        rw [if_pos h]
        have htcp := hco u₀ hu₀
        constructor
        · rw [hpmch]
          rw [List.nodup_append]
          refine ⟨htcp.1, List.nodup_singleton _, ?_⟩
          intro ch hch hch'
          have hcht : ch = task.id := List.mem_singleton.1 hch'
          rw [hcht] at hch
          obtain ⟨x, hx, hxid, _⟩ := (htcp.2 task.id).1 hch
          exact hid x hx hxid
        · intro ch
          rw [hpmch]
          constructor
          · intro hch
            rcases List.mem_append.1 hch with hch' | hch'
            · obtain ⟨x, hx, hxid, hxp⟩ := (htcp.2 ch).1 hch'
              refine ⟨(fun u => if u.id = pm.id then pm else u) x,
                List.mem_append_left _ (List.mem_map_of_mem _ hx),
                (hreppres x hx).1.trans hxid, ?_⟩
              rw [(hreppres x hx).2, hxp, hpmid]
            · rcases List.mem_singleton.1 hch' with rfl
              refine ⟨task, List.mem_append_right _ (List.mem_singleton.2 rfl),
                rfl, ?_⟩
              rw [htp, hpmid]
          · rintro ⟨w', hw', hw'id, hw'p⟩
            rcases List.mem_append.1 hw' with hwm | hwm
            · rcases List.mem_map.1 hwm with ⟨x₀, hx₀, rfl⟩
              have hx₀id : x₀.id = ch := ((hreppres x₀ hx₀).1).symm.trans hw'id
              have hx₀p : x₀.parentId = some u₀.id := by
                rw [← (hreppres x₀ hx₀).2, hw'p, hpmid]
              exact List.mem_append_left _ ((htcp.2 ch).2 ⟨x₀, hx₀, hx₀id, hx₀p⟩)
            · rcases List.mem_singleton.1 hwm with rfl
              exact List.mem_append_right _ (List.mem_singleton.2 hw'id.symm)
      · rw [if_neg h]
        have htcu := hco u₀ hu₀
        refine ⟨htcu.1, fun ch => ?_⟩
        constructor
        · intro hch
          obtain ⟨x, hx, hxid, hxp⟩ := (htcu.2 ch).1 hch
          exact ⟨(fun u => if u.id = pm.id then pm else u) x,
            List.mem_append_left _ (List.mem_map_of_mem _ hx),
            (hreppres x hx).1.trans hxid, (hreppres x hx).2.trans hxp⟩
        · rintro ⟨w', hw', hw'id, hw'p⟩
          rcases List.mem_append.1 hw' with hwm | hwm
          · rcases List.mem_map.1 hwm with ⟨x₀, hx₀, rfl⟩
            have hx₀id : x₀.id = ch := ((hreppres x₀ hx₀).1).symm.trans hw'id
            have hx₀p : x₀.parentId = some u₀.id := by
              rw [← (hreppres x₀ hx₀).2, hw'p]
            exact (htcu.2 ch).2 ⟨x₀, hx₀, hx₀id, hx₀p⟩
          · rcases List.mem_singleton.1 hwm with rfl
            rw [htp] at hw'p
            exact absurd ((Option.some.inj hw'p).symm.trans hpmid.symm) h
    · rcases List.mem_singleton.1 hw' with rfl
      refine ⟨by rw [hchild]; exact List.nodup_nil, fun ch => ?_⟩
      rw [hchild]
      simp only [List.not_mem_nil, false_iff]
      rintro ⟨w', hw', hw'id, hw'p⟩
      rcases List.mem_append.1 hw' with hwm | hwm
      · rcases List.mem_map.1 hwm with ⟨x₀, hx₀, rfl⟩
        have hx₀p : x₀.parentId = some w.id := by
          rw [← (hreppres x₀ hx₀).2, hw'p]
        exact hpar x₀ hx₀ (by rw [hx₀p])
      · rcases List.mem_singleton.1 hwm with rfl
        exact hself hw'p

theorem createTask_fst (s : Store) (input : TaskInput) (newId : String)
    (now : Nat) :
    (createTask s input newId now).1 =
      setTask
        (match input.parentId with
        | some pid =>
          match lookup s pid with
          | some parent =>
            setTask s { parent with childTasks := parent.childTasks ++ [newId] }
          | none => s
        | none => s)
        { id := newId, title := input.title, description := input.description,
          completed := false, parentId := input.parentId,
          projectId := input.projectId, childTasks := [],
          createdAt := now, updatedAt := now, priority := input.priority } := rfl

theorem createTask_preserves {s : Store} {input : TaskInput} {newId : String}
    {now : Nat} (hInv : Inv s) (hfresh : freshId s input newId = true) :
    Inv (createTask s input newId now).1 := by
  have hfr : (∀ u ∈ s, ¬ u.id = newId ∧ ¬ u.parentId = some newId) ∧
      ¬ input.parentId = some newId := by
    simpa [freshId, List.all_eq_true, Bool.and_eq_true, decide_eq_true_eq]
      using hfresh
  rw [createTask_fst]
  rcases hpid : input.parentId with _ | pid
  · dsimp only
    rw [setTask_absent (fun u hu => (hfr.1 u hu).1)]
    refine inv_snoc hInv (fun u hu => (hfr.1 u hu).1)
      (fun u hu => (hfr.1 u hu).2) rfl ?_ ?_
    · intro h
      exact Option.noConfusion h
    · intro p hp
      exact Option.noConfusion hp
  · dsimp only
    rcases hlk : lookup s pid with _ | parent
    · dsimp only
      rw [setTask_absent (fun u hu => (hfr.1 u hu).1)]
      have hnoparent : ∀ u ∈ s, u.id ≠ pid := lookup_eq_none.1 hlk
      refine inv_snoc hInv (fun u hu => (hfr.1 u hu).1)
        (fun u hu => (hfr.1 u hu).2) rfl ?_ ?_
      · intro h
        have : pid = newId := Option.some.inj h
        rw [hpid] at hfr
        exact hfr.2 (by rw [this])
      · intro p hp u hu
        have : p = pid := (Option.some.inj hp).symm
        rw [this]
        exact hnoparent u hu
    · obtain ⟨hpmem, hparid⟩ := lookup_eq_some hlk
      dsimp only
      rw [@setTask_present s
        { parent with childTasks := parent.childTasks ++ [newId] }
        ⟨parent, hpmem, rfl⟩]
      rw [setTask_absent ?habs]
      case habs =>
        intro w hw
        rcases List.mem_map.1 hw with ⟨u₀, hu₀, rfl⟩
        by_cases h : u₀.id =
            ({ parent with childTasks := parent.childTasks ++ [newId] } : Task).id
        · rw [if_pos h]
          exact (hfr.1 parent hpmem).1
        · rw [if_neg h]
          exact (hfr.1 u₀ hu₀).1
      refine inv_snoc_parent hInv hpmem rfl
        (fun u hu => (hfr.1 u hu).1) (fun u hu => (hfr.1 u hu).2) rfl ?_
      show some pid = some parent.id
      rw [hparid]

theorem deleteTask_of_lookup_none {s : Store} {id : String}
    (h : lookup s id = none) : deleteTask s id = (s, false) := by
  unfold deleteTask
  rw [deleteTaskFuel_succ, h]

theorem deleteTask_eq {rank : String → Nat} {s : Store} {id : String}
    {t : Task} (hnd : NodupKeys s) (hr : RankOk s rank)
    (hsc : SubChildrenOk s id) (hlook : lookup s id = some t) :
    deleteTask s id = (deleteResult s t, true) := by
  unfold deleteTask
  refine deleteTaskFuel_eq (s.length + 1) s id t hnd hr hsc hlook ?_
  have := cnt_le_length s rank (rank id)
  omega

theorem deleteTask_preserves {s : Store} {id : String} (hInv : Inv s) :
    Inv (deleteTask s id).1 := by
  obtain ⟨hnd, ⟨rank, hr⟩, hco⟩ := hInv
  rcases hlook : lookup s id with _ | t
  · rw [deleteTask_of_lookup_none hlook]
    exact ⟨hnd, ⟨rank, hr⟩, hco⟩
  · have ht := (lookup_eq_some hlook).1
    rw [deleteTask_eq hnd hr (fun u hu _ => hco u hu) hlook]
    refine ⟨?_, ⟨rank, ?_⟩, ?_⟩
    · unfold deleteResult
      exact nodupKeys_filter (nodupKeys_map (fun u _ => detachAll_id t u) hnd)
    · unfold deleteResult
      exact rankOk_filter (rankOk_map (detachAll_pres t) hr)
    · exact deleteResult_childrenOk hnd hr hco ht

theorem inv_nil : Inv ([] : Store) :=
  ⟨List.nodup_nil, ⟨fun _ => 0, fun v hv => absurd hv (List.not_mem_nil v)⟩,
    fun u hu => absurd hu (List.not_mem_nil u)⟩

theorem okOps_inv : ∀ (ops : List Op) (s : Store), Inv s →
    okOps s ops = true → Inv (runOps s ops) := by
  intro ops
  induction ops with
  | nil =>
    intro s h _
    exact h
  | cons op rest ih =>
    intro s h hok
    cases op with
    | create input newId now =>
      have hok' : freshId s input newId = true ∧
          okOps (applyOp s (Op.create input newId now)) rest = true := by
        simpa [okOps, Bool.and_eq_true] using hok
      exact ih _ (createTask_preserves h hok'.1) hok'.2
    | delete id =>
      have hok' : okOps (applyOp s (Op.delete id)) rest = true := by
        simpa [okOps] using hok
      exact ih _ (deleteTask_preserves h) hok'

theorem okOps_append_left : ∀ (l₁ l₂ : List Op) (s : Store),
    okOps s (l₁ ++ l₂) = true → okOps s l₁ = true := by
  intro l₁
  induction l₁ with
  | nil =>
    intro l₂ s _
    rfl
  | cons op rest ih =>
    intro l₂ s h
    cases op with
    | create input newId now =>
      simp only [List.cons_append, okOps, Bool.and_eq_true] at h ⊢
      exact ⟨h.1, ih l₂ _ h.2⟩
    | delete id =>
      simp only [List.cons_append, okOps] at h ⊢
      exact ih l₂ _ h

theorem countP_not_add {α : Type} (p : α → Bool) (l : List α) :
    l.countP p + l.countP (fun a => !(p a)) = l.length := by
  induction l with
  | nil => rfl
  | cons a l ih =>
    by_cases h : p a = true
    · simp [List.countP_cons, h]
      omega
    · have h' : p a = false := by simpa using h
      simp [List.countP_cons, h']
      omega

theorem countP_contains_of_nodup {s : Store} (hnd : NodupKeys s) :
    ∀ (K : List String), K.Nodup → (∀ k ∈ K, ∃ u ∈ s, u.id = k) →
      List.countP (fun u => K.contains u.id) s = K.length := by
  intro K
  induction K with
  | nil =>
    intro _ _
    simp
  | cons k K ih =>
    intro hKnd hKmem
    have hk : k ∉ K := (List.nodup_cons.1 hKnd).1
    have hsplit : List.countP (fun u => (k :: K).contains u.id) s
        = List.countP (fun u => (u.id == k) || K.contains u.id) s := by
      refine List.countP_congr (fun u _ => ?_)
      simp [List.contains_cons]
    rw [hsplit]
    rw [countP_disjoint (fun u _ hpq => ?over)]
    case over =>
      have h1 : u.id = k := by simpa using hpq.1
      have h2 : u.id ∈ K := by
        have := hpq.2
        simpa [List.elem_iff] using this
      exact hk (h1 ▸ h2)
    have hcount1 : List.countP (fun u => u.id == k) s = 1 := by
      have hmap : List.countP (fun x => x == k) (s.map Task.id)
          = List.countP ((fun x => x == k) ∘ Task.id) s :=
        List.countP_map _ _ _
      have hmem : k ∈ s.map Task.id := by
        obtain ⟨u, hu, huid⟩ := hKmem k (List.mem_cons_self k K)
        exact List.mem_map.2 ⟨u, hu, huid⟩
      have hone : List.count k (s.map Task.id) = 1 :=
        List.count_eq_one_of_mem hnd hmem
      rw [List.count] at hone
      rw [← hone, hmap]
      rfl
    rw [hcount1, ih (List.nodup_cons.1 hKnd).2
      (fun k' hk' => hKmem k' (List.mem_cons_of_mem k hk'))]
    simp [List.length_cons]
    omega

theorem subtreeIds_mem_ids {rank : String → Nat} {s : Store} {t : Task}
    (hr : RankOk s rank) (ht : t ∈ s) :
    ∀ x ∈ subtreeIds s t.id, ∃ u ∈ s, u.id = x := by
  intro x hx
  have hin := (subtreeIds_char hr ⟨t, ht, rfl⟩ x).1 hx
  rcases hin.mem with rfl | hmem
  · exact ⟨t, ht, rfl⟩
  · exact hmem

theorem deleteResult_length {rank : String → Nat} {s : Store} {t : Task}
    (hnd : NodupKeys s) (hr : RankOk s rank) (ht : t ∈ s) :
    (deleteResult s t).length + (subtreeIds s t.id).length = s.length := by
  have hK : (subtreeIds s t.id).Nodup :=
    subtreeIds_nodup hnd hr ⟨t, ht, rfl⟩
  have h3 : List.countP (fun u => (subtreeIds s t.id).contains u.id) s
      = (subtreeIds s t.id).length :=
    countP_contains_of_nodup hnd _ hK (subtreeIds_mem_ids hr ht)
  have h2 := countP_not_add (fun u => (subtreeIds s t.id).contains u.id) s
  have h1 : (deleteResult s t).length
      = List.countP (fun u => !((subtreeIds s t.id).contains u.id)) s := by
    unfold deleteResult
    rw [← List.countP_eq_length_filter, List.countP_map]
    refine List.countP_congr (fun u _ => ?_)
    simp [Function.comp, detachAll_id]
  omega

/-- C1 (tree consistency): along every admissible sequence of `createTask`
and `deleteTask` operations from the empty store — admissible meaning each
create uses a fresh generated id, which is what `nanoid()` provides — and
at every point of the sequence, every stored task's `childTasks` list is
duplicate-free and holds exactly the ids of the stored tasks whose
`parentId` equals that task's id. -/
theorem tree_consistency (ops₁ ops₂ : List Op)
    (h : okOps [] (ops₁ ++ ops₂) = true) :
    ChildrenOk (runOps [] ops₁) :=
  (okOps_inv ops₁ [] inv_nil (okOps_append_left ops₁ ops₂ [] h)).2.2

theorem tree_consistency_witness :
    okOps [] (exOps₁ ++ exOps₂) = true ∧ ChildrenOk (runOps [] exOps₁) :=
  ⟨by decide, tree_consistency exOps₁ exOps₂ (by decide)⟩

/-- C2 (cascade completeness): on every store reachable by an admissible
operation sequence, deleting a task with `N` transitive descendants
removes exactly `N + 1` records, none of the removed ids remains
retrievable by `getTaskById`, no other record appears, and deleting an
unknown id returns `false` leaving the store unchanged. -/
theorem cascade_completeness (ops : List Op) (h : okOps [] ops = true)
    (id : String) : CascadeDeleteSpec (runOps [] ops) id := by
  obtain ⟨hnd, ⟨rank, hr⟩, hco⟩ := okOps_inv ops [] inv_nil h
  constructor
  · intro hlook
    exact deleteTask_of_lookup_none hlook
  · intro t hlook
    have ht := (lookup_eq_some hlook).1
    have htid := (lookup_eq_some hlook).2
    subst htid
    have hdel := deleteTask_eq hnd hr (fun u hu _ => hco u hu) hlook
    rw [hdel]
    refine ⟨rfl, ?_, ?_, ?_, ?_⟩
    · exact deleteResult_length hnd hr ht
    · intro x hx
      have hin := (subtreeIds_char hr ⟨t, ht, rfl⟩ x).1 hx
      refine lookup_eq_none.2 (fun u hu => ?_)
      obtain ⟨w₀, hw₀, rfl, hnot⟩ := mem_deleteResult_elim hr ht hu
      rw [detachAll_id]
      intro he
      exact hnot (he ▸ hin)
    · intro x hx
      refine lookup_eq_none.2 (fun u hu => ?_)
      obtain ⟨w₀, hw₀, rfl, _⟩ := mem_deleteResult_elim hr ht hu
      rw [detachAll_id]
      exact lookup_eq_none.1 hx w₀ hw₀
    · exact fun x => subtreeIds_char hr ⟨t, ht, rfl⟩ x

theorem cascade_completeness_witness :
    okOps [] exOps₁ = true ∧ CascadeDeleteSpec (runOps [] exOps₁) "a" :=
  ⟨by decide, cascade_completeness exOps₁ (by decide) "a"⟩

theorem lookup_append (s₁ s₂ : Store) (x : String) :
    lookup (s₁ ++ s₂) x = (lookup s₁ x).or (lookup s₂ x) := by
  unfold lookup
  exact List.find?_append

/-- C4 amended behavior: `createTask` with a parentId that resolves to no
stored task silently succeeds — the new task is appended with the dangling
parent pointer, no child list is touched, and no `NotFound` failure
occurs. -/
theorem create_with_unresolvable_parent {s : Store} {input : TaskInput}
    {newId : String} {now : Nat} {pid : String}
    (hpid : input.parentId = some pid) (hlk : lookup s pid = none)
    (hfresh : freshId s input newId = true) :
    (createTask s input newId now).1 = s ++ [(createTask s input newId now).2] ∧
      (createTask s input newId now).2.parentId = some pid ∧
      (createTask s input newId now).2.id = newId ∧
      getTaskById (createTask s input newId now).1 newId
        = some (createTask s input newId now).2 := by
  have hfr : (∀ u ∈ s, ¬ u.id = newId ∧ ¬ u.parentId = some newId) ∧
      ¬ input.parentId = some newId := by
    simpa [freshId, List.all_eq_true, Bool.and_eq_true, decide_eq_true_eq]
      using hfresh
  have hstore : (createTask s input newId now).1
      = s ++ [(createTask s input newId now).2] := by
    rw [createTask_fst]
    rcases hpid' : input.parentId with _ | pid'
    · rw [hpid'] at hpid
      exact Option.noConfusion hpid
    · have : pid' = pid := Option.some.inj (hpid' ▸ hpid)
      subst this
      dsimp only
      rw [hlk]
      dsimp only
      rw [setTask_absent (fun u hu => (hfr.1 u hu).1)]
      rw [← hpid']
      rfl
  refine ⟨hstore, hpid, rfl, ?_⟩
  rw [hstore]
  unfold getTaskById
  rw [lookup_append]
  have h1 : lookup s newId = none :=
    lookup_eq_none.2 (fun u hu => (hfr.1 u hu).1)
  rw [h1]
  have h2 : lookup [(createTask s input newId now).2] newId
      = some (createTask s input newId now).2 := by
    unfold lookup
    rw [List.find?_cons]
    have : ((createTask s input newId now).2.id = newId) := rfl
    simp [this]
  rw [h2]
  rfl

theorem create_with_unresolvable_parent_witness :
    (exInput "Orphan" (some "ghost")).parentId = some "ghost" ∧
    lookup [] "ghost" = none ∧
    freshId [] (exInput "Orphan" (some "ghost")) "x" = true ∧
    ((createTask [] (exInput "Orphan" (some "ghost")) "x" 0).1
        = [] ++ [(createTask [] (exInput "Orphan" (some "ghost")) "x" 0).2] ∧
      (createTask [] (exInput "Orphan" (some "ghost")) "x" 0).2.parentId
        = some "ghost" ∧
      (createTask [] (exInput "Orphan" (some "ghost")) "x" 0).2.id = "x" ∧
      getTaskById (createTask [] (exInput "Orphan" (some "ghost")) "x" 0).1 "x"
        = some (createTask [] (exInput "Orphan" (some "ghost")) "x" 0).2) :=
  ⟨rfl, rfl, by decide,
    create_with_unresolvable_parent rfl rfl (by decide)⟩

/-- C4 as frozen is false on the code: creating a task under an unknown
parent id in the empty store succeeds and stores the task, instead of
failing with `NotFound` and creating nothing. -/
theorem create_unresolvable_parent_counterexample :
    getTaskById (createTask [] (exInput "Orphan" (some "ghost")) "x" 0).1 "x"
        ≠ none ∧
      (createTask [] (exInput "Orphan" (some "ghost")) "x" 0).1 ≠ [] := by
  decide

/-- C3 amended behavior: `createTask` with a parentId whose task lives in a
different project silently succeeds — the new task is created with the
cross-project parent pointer and the parent's `childTasks` gains the new
id; no `InvalidArgument` failure occurs. -/
theorem cross_project_create {s : Store} {input : TaskInput} {newId : String}
    {now : Nat} {pid : String} {parent : Task}
    (hnd : NodupKeys s) (hpid : input.parentId = some pid)
    (hp : lookup s pid = some parent)
    (hproj : parent.projectId ≠ input.projectId)
    (hfresh : freshId s input newId = true) :
    (createTask s input newId now).2.parentId = some pid ∧
    (createTask s input newId now).2.projectId = input.projectId ∧
    getTaskById (createTask s input newId now).1 newId
      = some (createTask s input newId now).2 ∧
    ∃ p', getTaskById (createTask s input newId now).1 pid = some p' ∧
      p'.childTasks = parent.childTasks ++ [newId] ∧
      p'.projectId = parent.projectId := by
  obtain ⟨hpmem, hparid⟩ := lookup_eq_some hp
  subst hparid
  have hfr : (∀ u ∈ s, ¬ u.id = newId ∧ ¬ u.parentId = some newId) ∧
      ¬ input.parentId = some newId := by
    simpa [freshId, List.all_eq_true, Bool.and_eq_true, decide_eq_true_eq]
      using hfresh
  have hmapids : ∀ w ∈ s.map (fun u =>
      if u.id = ({ parent with childTasks := parent.childTasks ++ [newId] } : Task).id
      then { parent with childTasks := parent.childTasks ++ [newId] } else u),
      w.id ≠ newId := by
    intro w hw
    rcases List.mem_map.1 hw with ⟨u₀, hu₀, rfl⟩
    by_cases h : u₀.id =
        ({ parent with childTasks := parent.childTasks ++ [newId] } : Task).id
    · rw [if_pos h]
      exact (hfr.1 parent hpmem).1
    · rw [if_neg h]
      exact (hfr.1 u₀ hu₀).1
  have hstore : (createTask s input newId now).1
      = (s.map (fun u =>
          if u.id = ({ parent with childTasks := parent.childTasks ++ [newId] } : Task).id
          then { parent with childTasks := parent.childTasks ++ [newId] } else u))
        ++ [(createTask s input newId now).2] := by
    rw [createTask_fst]
    rcases hpid' : input.parentId with _ | pid'
    · rw [hpid'] at hpid
      exact Option.noConfusion hpid
    · have hpp : pid' = parent.id := Option.some.inj (hpid' ▸ hpid)
      subst hpp
      dsimp only
      rw [hp]
      dsimp only
      rw [@setTask_present s
        { parent with childTasks := parent.childTasks ++ [newId] }
        ⟨parent, hpmem, rfl⟩]
      rw [setTask_absent hmapids]
      rw [← hpid']
      rfl
  refine ⟨hpid, rfl, ?_, ?_⟩
  · rw [hstore]
    unfold getTaskById
    rw [lookup_append]
    have h1 : lookup (s.map (fun u =>
        if u.id = ({ parent with childTasks := parent.childTasks ++ [newId] } : Task).id
        then { parent with childTasks := parent.childTasks ++ [newId] } else u)) newId
        = none := lookup_eq_none.2 hmapids
    rw [h1]
    unfold lookup
    rw [List.find?_cons]
    have hb : ((createTask s input newId now).2.id = newId) := rfl
    simp [hb]
  · refine ⟨{ parent with childTasks := parent.childTasks ++ [newId] }, ?_, rfl, rfl⟩
    rw [hstore]
    unfold getTaskById
    rw [lookup_append]
    have hmem : ({ parent with childTasks := parent.childTasks ++ [newId] } : Task)
        ∈ s.map (fun u =>
          if u.id = ({ parent with childTasks := parent.childTasks ++ [newId] } : Task).id
          then { parent with childTasks := parent.childTasks ++ [newId] } else u) := by
      refine List.mem_map.2 ⟨parent, hpmem, ?_⟩
      rw [if_pos rfl]
    have hndm : NodupKeys (s.map (fun u =>
        if u.id = ({ parent with childTasks := parent.childTasks ++ [newId] } : Task).id
        then { parent with childTasks := parent.childTasks ++ [newId] } else u)) := by
      refine nodupKeys_map (fun u hu => ?_) hnd
      by_cases h : u.id =
          ({ parent with childTasks := parent.childTasks ++ [newId] } : Task).id
      · rw [if_pos h]
        exact h.symm
      · rw [if_neg h]
    have h2 : lookup (s.map (fun u =>
        if u.id = ({ parent with childTasks := parent.childTasks ++ [newId] } : Task).id
        then { parent with childTasks := parent.childTasks ++ [newId] } else u)) parent.id
        = some { parent with childTasks := parent.childTasks ++ [newId] } :=
      lookup_of_mem hndm hmem
    rw [h2]
    rfl

/-- C3 as frozen is false on the code: a cross-project `createTask` call
stores the new task (with the cross-project parent pointer) instead of
failing with `InvalidArgument` and creating nothing. -/
theorem cross_project_counterexample :
    exTA.projectId ≠ exInputQ.projectId ∧
    getTaskById (createTask exS exInputQ "b" 1).1 "b" ≠ none ∧
    (createTask exS exInputQ "b" 1).2.parentId = some "a" := by
  decide

theorem cross_project_create_witness :
    exInputQ.parentId = some "a" ∧ lookup exS "a" = some exTA ∧
    exTA.projectId ≠ exInputQ.projectId ∧ freshId exS exInputQ "b" = true ∧
    ((createTask exS exInputQ "b" 1).2.parentId = some "a" ∧
      (createTask exS exInputQ "b" 1).2.projectId = exInputQ.projectId ∧
      getTaskById (createTask exS exInputQ "b" 1).1 "b"
        = some (createTask exS exInputQ "b" 1).2 ∧
      ∃ p', getTaskById (createTask exS exInputQ "b" 1).1 "a" = some p' ∧
        p'.childTasks = exTA.childTasks ++ ["b"] ∧
        p'.projectId = exTA.projectId) :=
  ⟨rfl, by decide, by decide, by decide,
    cross_project_create (by unfold NodupKeys; decide) rfl (by decide)
      (by decide) (by decide)⟩

end FileTaskStore

namespace TRStore

/-- C5 fails on the code: `generateUniqueId` derives the next number from the
current row count, so after create("a"), create("b"), delete("a"),
create("c") the store holds two distinct rows both carrying uniqueId
"TR-002" — the suffixes are neither strictly increasing nor unique. -/
theorem uniqueId_reused_after_delete :
    c5rowB.uniqueId = "TR-002" ∧ c5rowC.uniqueId = "TR-002" ∧
    c5rowB ∈ c5db₄ ∧ c5rowC ∈ c5db₄ ∧ c5rowB ≠ c5rowC ∧
    (deleteTechnicalRequirement c5db₂ "a").2 = true := by
  decide

end TRStore

namespace Discovery

/-- C6 fails on the code: project "p2" has no discovery session at all, yet
`processDiscoveryResponse` succeeds — the stage-only where clause finds
project "p1"'s session and the response is written into that row. -/
theorem recordResponse_cross_project :
    c6db.all (fun s => ¬ s.projectId = c6input.projectId) = true ∧
    processDiscoveryResponse c6db c6input 5 =
      Except.ok [{ id := "s1", projectId := "p1", domain := "d", stage := Stage.initial, responses := [("5", "hello")], createdAt := 0, updatedAt := 5 }] := by
  refine ⟨by decide, ?_⟩
  rfl

/-- C7 amended behavior: when the timestamp key `toString now` differs from
every key already in the session's response map, a successful
`processDiscoveryResponse` call appends exactly one entry and keeps every
prior entry unchanged. -/
theorem response_accumulation {db : SessionDb} {input : ProcessInput}
    {now : Nat} {session : SessionRow}
    (hs : getExistingSession db input.projectId input.stage = some session)
    (hfresh : ∀ p ∈ session.responses, p.1 ≠ toString now) :
    processDiscoveryResponse db input now =
      Except.ok (db.map (fun s =>
        if s.id = session.id
        then { s with responses := session.responses ++ [(toString now, input.response)], updatedAt := now }
        else s)) := by
  unfold processDiscoveryResponse
  rw [hs]
  dsimp only
  have hany : session.responses.any (fun p => p.1 = toString now) = false := by
    rw [List.any_eq_false]
    intro p hp
    simpa using hfresh p hp
  simp [setKey, hany]

theorem response_accumulation_witness :
    getExistingSession c7db c7input.projectId c7input.stage = some c7sess ∧
    (∀ p ∈ c7sess.responses, p.1 ≠ toString 7) ∧
    processDiscoveryResponse c7db c7input 7 =
      Except.ok (c7db.map (fun s =>
        if s.id = c7sess.id
        then { s with responses := c7sess.responses ++ [(toString 7, c7input.response)], updatedAt := 7 }
        else s)) :=
  ⟨by decide, by decide, response_accumulation (by decide) (by decide)⟩

/-- C7 as frozen is false on the code: two successful `recordResponse` calls
landing in the same millisecond (`Date.now()` returns 7 twice) produce a map
with 2 entries instead of 3 — the second call silently overwrites the
first call's response "r1" with "r2". -/
theorem response_overwrite_counterexample :
    processDiscoveryResponse c7db c7input 7 = Except.ok c7db₁ ∧
    processDiscoveryResponse c7db₁ c7input₂ 7 = Except.ok c7db₂ ∧
    (c7db₂.map SessionRow.responses) = [[("3", "old"), ("7", "r2")]] ∧
    c7db₂.all (fun s => s.responses.all (fun p => ¬ p.2 = "r1")) = true :=
  ⟨rfl, rfl, by decide, by decide⟩

/-- C8 confirmed: two consecutive `guidedRequirementDiscovery` calls with
the same (projectId, stage) and no intervening advancement use the same
session id — the first call inserts at most one session and the second
resumes exactly the first call's session, inserting nothing. -/
theorem discovery_session_identity (db : SessionDb) (input : DiscoveryInput)
    (id₁ id₂ : String) (t₁ t₂ : Nat) :
    (guidedRequirementDiscovery (guidedRequirementDiscovery db input id₁ t₁).1 input id₂ t₂).2
      = (guidedRequirementDiscovery db input id₁ t₁).2 ∧
    (guidedRequirementDiscovery (guidedRequirementDiscovery db input id₁ t₁).1 input id₂ t₂).1
      = (guidedRequirementDiscovery db input id₁ t₁).1 ∧
    (guidedRequirementDiscovery db input id₁ t₁).1.length ≤ db.length + 1 := by
  rcases h : getExistingSession db input.projectId input.stage with _ | s
  · have hfilt : db.filter (fun u => u.stage = input.stage) = [] := by
      unfold getExistingSession at h
      exact List.head?_eq_none_iff.1 h
    have h1 : guidedRequirementDiscovery db input id₁ t₁
        = (db ++ [{ id := id₁, projectId := input.projectId, domain := input.domain, stage := input.stage, responses := [], createdAt := t₁, updatedAt := t₁ }], id₁) := by
      unfold guidedRequirementDiscovery
      rw [h]
    have hget2 : getExistingSession
        (db ++ [{ id := id₁, projectId := input.projectId, domain := input.domain, stage := input.stage, responses := [], createdAt := t₁, updatedAt := t₁ }])
        input.projectId input.stage
        = some { id := id₁, projectId := input.projectId, domain := input.domain, stage := input.stage, responses := [], createdAt := t₁, updatedAt := t₁ } := by
      unfold getExistingSession
      rw [List.filter_append, hfilt]
      simp [List.filter]
    have h2 : guidedRequirementDiscovery
        (db ++ [{ id := id₁, projectId := input.projectId, domain := input.domain, stage := input.stage, responses := [], createdAt := t₁, updatedAt := t₁ }])
        input id₂ t₂
        = (db ++ [{ id := id₁, projectId := input.projectId, domain := input.domain, stage := input.stage, responses := [], createdAt := t₁, updatedAt := t₁ }], id₁) := by
      unfold guidedRequirementDiscovery
      rw [hget2]
    rw [h1, h2]
    exact ⟨rfl, rfl, by simp⟩
  · have h1 : guidedRequirementDiscovery db input id₁ t₁ = (db, s.id) := by
      unfold guidedRequirementDiscovery
      rw [h]
    have h2 : guidedRequirementDiscovery db input id₂ t₂ = (db, s.id) := by
      unfold guidedRequirementDiscovery
      rw [h]
    rw [h1, h2]
    exact ⟨rfl, rfl, Nat.le_succ_of_le (Nat.le_refl _)⟩

end Discovery

namespace ReqStore

/-- Every row whose id matches an `updateRequirement` target satisfies any
predicate that `applyUpdate` establishes. -/
theorem updateRequirement_filter_all (db : ReqDb) (id : String)
    (upd : UpdateRequirementInput) (now : Nat) (q : ReqRow → Bool)
    (hq : ∀ r, q (applyUpdate upd now r) = true) :
    ((updateRequirement db id upd now).1.filter (fun r => r.id = id)).all q = true := by
  rcases hf : getRequirementById db id with _ | m
  · have h1 : (updateRequirement db id upd now).1 = db := by
      unfold updateRequirement
      rw [hf]
    rw [h1, List.all_eq_true]
    intro u hu
    rcases List.mem_filter.1 hu with ⟨hmem, hid⟩
    have hfind : db.find? (fun r => r.id = id) = none := by
      rcases hx : db.find? (fun r => r.id = id) with _ | v
      · exact hx
      · unfold getRequirementById at hf
        rw [hx] at hf
        exact Option.noConfusion hf
    have hne := List.find?_eq_none.1 hfind u hmem
    simp at hne hid
    exact absurd hid hne
  · have h1 : (updateRequirement db id upd now).1
        = db.map (fun r => if r.id = id then applyUpdate upd now r else r) := by
      unfold updateRequirement
      rw [hf]
    rw [h1, List.all_eq_true]
    intro u hu
    rcases List.mem_filter.1 hu with ⟨hmem, hid⟩
    rcases List.mem_map.1 hmem with ⟨r, hr, rfl⟩
    by_cases h : r.id = id
    · rw [if_pos h]
      exact hq r
    · rw [if_neg h] at hid
      simp at hid
      exact absurd hid h

/-- C9 confirmed: a "critical" priority is persisted as "high" — the row
inserted by `createRequirement` carries the mapped priority, a subsequent
`getRequirementById` returns "high" for "critical" and every other priority
unchanged, and `updateRequirement` with priority "critical" leaves every
updated row at "high". -/
theorem critical_maps_to_high (db : ReqDb) (input : RequirementInput)
    (upd : UpdateRequirementInput) (rid newId : String) (now : Nat)
    (hfresh : db.all (fun r => ¬ r.id = newId) = true)
    (hupd : upd.priority = some ReqPriority.critical) :
    (∃ row, (createRequirement db input newId now).1 = db ++ [row] ∧
      row.priority = some (dbPriorityOf input.priority) ∧
      dbPriorityOf ReqPriority.critical = DbPriority.high) ∧
    (getRequirementById (createRequirement db input newId now).1 newId).map Requirement.priority
      = some (if input.priority = ReqPriority.critical then ReqPriority.high else input.priority) ∧
    ((updateRequirement db rid upd now).1.filter (fun r => r.id = rid)).all
      (fun r => r.priority = some DbPriority.high) = true := by
  have hfind : db.find? (fun r => r.id = newId) = none := by
    rw [List.find?_eq_none]
    intro a ha
    have := List.all_eq_true.1 hfresh a ha
    simpa using this
  refine ⟨⟨_, rfl, rfl, rfl⟩, ?_, ?_⟩
  · unfold getRequirementById
    have hrow : (createRequirement db input newId now).1.find? (fun r => r.id = newId)
        = some { id := newId, projectId := input.projectId, title := input.title, description := input.description, type := input.type, priority := some (dbPriorityOf input.priority), status := ReqStatus.draft, tags := input.tags.getD [], createdAt := now, updatedAt := now } := by
      unfold createRequirement
      dsimp only
      rw [List.find?_append, hfind]
      simp [List.find?]
    rw [hrow]
    dsimp [mapToRequirementModel]
    cases input.priority <;> rfl
  · refine updateRequirement_filter_all db rid upd now _ (fun r => ?_)
    simp [applyUpdate, hupd, dbPriorityOf]

theorem critical_maps_to_high_witness :
    c9db.all (fun r => ¬ r.id = "x") = true ∧
    c9upd.priority = some ReqPriority.critical ∧
    ((∃ row, (createRequirement c9db c9input "x" 5).1 = c9db ++ [row] ∧
      row.priority = some (dbPriorityOf c9input.priority) ∧
      dbPriorityOf ReqPriority.critical = DbPriority.high) ∧
    (getRequirementById (createRequirement c9db c9input "x" 5).1 "x").map Requirement.priority
      = some (if c9input.priority = ReqPriority.critical then ReqPriority.high else c9input.priority) ∧
    ((updateRequirement c9db "r1" c9upd 5).1.filter (fun r => r.id = "r1")).all
      (fun r => r.priority = some DbPriority.high) = true) :=
  ⟨by decide, by decide,
    critical_maps_to_high c9db c9input c9upd "r1" "x" 5 (by decide) (by decide)⟩

/-- C10 confirmed: every record produced by `createRequirement` has status
"draft" — the status supplied on the input object is ignored — and a
non-draft status is reachable afterwards through `updateRequirement`, which
sets any supplied status on the matching row. -/
theorem create_status_draft (db : ReqDb) (input : RequirementInput) (newId : String)
    (now : Nat) (rid : String) (upd : UpdateRequirementInput) (st : ReqStatus)
    (hst : upd.status = some st) :
    (createRequirement db input newId now).2.status = ReqStatus.draft ∧
    (∃ row, (createRequirement db input newId now).1 = db ++ [row] ∧
      row.status = ReqStatus.draft) ∧
    ((updateRequirement db rid upd now).1.filter (fun r => r.id = rid)).all
      (fun r => r.status = st) = true := by
  refine ⟨rfl, ⟨_, rfl, rfl⟩, ?_⟩
  refine updateRequirement_filter_all db rid upd now _ (fun r => ?_)
  simp [applyUpdate, hst]

theorem create_status_draft_witness :
    c10upd.status = some ReqStatus.approved ∧
    c10input.status = some ReqStatus.approved ∧
    ((createRequirement c10db c10input "x" 5).2.status = ReqStatus.draft ∧
    (∃ row, (createRequirement c10db c10input "x" 5).1 = c10db ++ [row] ∧
      row.status = ReqStatus.draft) ∧
    ((updateRequirement c10db "r1" c10upd 5).1.filter (fun r => r.id = "r1")).all
      (fun r => r.status = ReqStatus.approved) = true) :=
  ⟨by decide, by decide,
    create_status_draft c10db c10input "x" 5 "r1" c10upd ReqStatus.approved (by decide)⟩

end ReqStore

end Planner
